import Mathlib

/-!
Verification development for the ItoSub live-subtitle pipeline.

Shallow embedding of the core components of the repository:
  - `itosub/audio/vad.py` (energy gate),
  - `itosub/audio/vad_webrtc.py` (frame-level VAD construction),
  - `itosub/audio/utterance_chunker.py` (frame-VAD utterance chunker),
  - `itosub/live/live_transcribe.py` (energy-gate utterance state machine),
  - `itosub/nlp/segmenter.py` (subtitle segmenter),
  - `itosub/app/runtime.py` (text filters, drop-oldest job queue),
  - `itosub/ui/bridge.py` (subtitle bus) and `itosub/ui/overlay_qt.py`
    (line merge policy).

Python byte strings are modelled as `List ℕ` (one entry per byte), PCM
samples as `ℤ`, real-valued times and thresholds as `ℚ` (exact ordered-field
arithmetic in place of IEEE floats), and fallible operations as
`Option`/`Except`.
-/

namespace ItoSub

/-- Whitespace test used to model Python `str.strip` / `str.split`.
Matches the common ASCII whitespace characters. -/
def isWS (c : Char) : Bool := c.isWhitespace

/-- Model of Python `str.strip()`: drop leading and trailing whitespace. -/
def pyStrip (s : String) : String :=
  String.mk (((s.data.dropWhile isWS).reverse.dropWhile isWS).reverse)

/-- Model of Python `str.split()` (no separator): whitespace-delimited words,
empty pieces dropped.  `acc` holds the characters of the word being read, in
reverse order. -/
def pyWordsAux : List Char → List Char → List String
  | [], acc => if acc = [] then [] else [String.mk acc.reverse]
  | c :: cs, acc =>
      if isWS c then
        if acc = [] then pyWordsAux cs []
        else String.mk acc.reverse :: pyWordsAux cs []
      else pyWordsAux cs (c :: acc)

/-- Model of Python `text.split()`. -/
def pyWords (s : String) : List String := pyWordsAux s.data []

/-- Model of Python `" ".flatten(ws)`. -/
def joinSp : List String → String
  | [] => ""
  | [w] => w
  | w :: ws => w ++ " " ++ joinSp ws

/-- Model of Python `str.lower()`: lowercase character by character
(kernel-reducible counterpart of `String.toLower`). -/
def strToLower (s : String) : String := String.mk (s.data.map Char.toLower)

/-! ### itosub/audio/vad.py -/

/-- Signed little-endian int16 from two bytes (`array("h").frombytes`). -/
def int16OfLE (b0 b1 : ℕ) : ℤ :=
  let u : ℕ := b0 % 256 + 256 * (b1 % 256)
  if u < 32768 then (u : ℤ) else (u : ℤ) - 65536

/-- Decode little-endian int16 samples from a byte list; `none` when the
byte count is odd (Python `array("h").frombytes` raises `ValueError`). -/
def decodeInt16LE : List ℕ → Option (List ℤ)
  | [] => some []
  | [_] => none
  | b0 :: b1 :: rest => (decodeInt16LE rest).map (fun s => int16OfLE b0 b1 :: s)

/-- Model of `pcm16_rms` from `itosub/audio/vad.py`, carried as the square of
the RMS (sum of squared samples over the sample count) so the value stays in
`ℚ`: the source returns `math.sqrt` of this quantity.  Empty input returns
`0.0` in the source; odd byte counts make `frombytes` raise (`none` here). -/
def pcm16_rms_sq (pcm16 : List ℕ) : Option ℚ :=
  if pcm16 = [] then some 0
  else
    (decodeInt16LE pcm16).map (fun (samples : List ℤ) =>
      if samples = [] then 0
      else ((samples.map (fun v => (v : ℚ) * (v : ℚ))).sum) / (samples.length : ℚ))

/-- Comparison `math.sqrt ms ≥ thr` expressed without leaving `ℚ`
(for `0 ≤ ms` it coincides with the real-number comparison, see
`cmpSqrtGe_iff_real`). -/
def cmpSqrtGe (thr ms : ℚ) : Bool := decide (thr ≤ 0) || decide (thr ^ 2 ≤ ms)

/-- Structure `EnergyVAD` from `itosub/audio/vad.py`. -/
structure EnergyVAD where
  rms_threshold : ℚ
deriving DecidableEq

/-- Constructor `EnergyVAD.__init__`: rejects a negative threshold with `ValueError`
(the spec's `InvalidConfig`). -/
def EnergyVAD.init (rms_threshold : ℚ) : Except String EnergyVAD :=
  if rms_threshold < 0 then Except.error "rms_threshold must be >= 0"
  else Except.ok ⟨rms_threshold⟩

/-- Operation `EnergyVAD.is_speech`: `pcm16_rms(pcm16) >= self.rms_threshold`. -/
def EnergyVAD.is_speech (v : EnergyVAD) (pcm16 : List ℕ) : Option Bool :=
  (pcm16_rms_sq pcm16).map (cmpSqrtGe v.rms_threshold)

/-! ### itosub/audio/vad_webrtc.py -/

/-- Structure `WebRtcVad` configuration (the wrapped `webrtcvad.Vad` classifier is an
opaque external capability and is not modelled). -/
structure WebRtcVad where
  sr : ℤ
  frame_ms : ℤ
  frame_bytes : ℤ
deriving DecidableEq

/-- Constructor `WebRtcVad.__init__`: `frame_ms` must be one of 10/20/30 (checked first),
`sr` one of 8000/16000/32000/48000; `frame_bytes = int(sr*frame_ms/1000)*2`. -/
def WebRtcVad.init (sr frame_ms : ℤ) : Except String WebRtcVad :=
  if ¬(frame_ms = 10 ∨ frame_ms = 20 ∨ frame_ms = 30) then
    Except.error "frame_ms must be 10/20/30"
  else if ¬(sr = 8000 ∨ sr = 16000 ∨ sr = 32000 ∨ sr = 48000) then
    Except.error "sr must be one of 8000/16000/32000/48000"
  else Except.ok ⟨sr, frame_ms, sr * frame_ms / 1000 * 2⟩

/-- Success test for an `Except`-returning constructor. -/
def isOkB : Except String α → Bool
  | Except.ok _ => true
  | Except.error _ => false

/-! ### Supporting lemmas for the VAD claims -/

theorem decodeInt16LE_isSome :
    ∀ bs : List ℕ, (decodeInt16LE bs).isSome = decide (bs.length % 2 = 0)
  | [] => by simp [decodeInt16LE]
  | [b] => by simp [decodeInt16LE]
  | b0 :: b1 :: rest => by
      have ih := decodeInt16LE_isSome rest
      have h1 : (decodeInt16LE (b0 :: b1 :: rest)).isSome = (decodeInt16LE rest).isSome := by
        simp only [decodeInt16LE]
        cases hd : decodeInt16LE rest <;> simp [hd]
      rw [h1, ih, decide_eq_decide]
      simp only [List.length_cons]
      omega

theorem pcm16_rms_sq_nonneg (bs : List ℕ) (ms : ℚ) (h : pcm16_rms_sq bs = some ms) :
    0 ≤ ms := by
  unfold pcm16_rms_sq at h
  split at h
  · simp only [Option.some.injEq] at h
    exact h ▸ le_refl 0
  · rcases hdec : decodeInt16LE bs with _ | samples
    · rw [hdec] at h; simp at h
    · rw [hdec] at h
      simp only [Option.map_some', Option.some.injEq] at h
      subst h
      split
      · exact le_refl 0
      · apply div_nonneg
        · apply List.sum_nonneg
          intro x hx
          simp only [List.mem_map] at hx
          obtain ⟨v, _, rfl⟩ := hx
          exact mul_self_nonneg _
        · positivity

theorem cmpSqrtGe_iff_real (thr ms : ℚ) (hms : 0 ≤ ms) :
    cmpSqrtGe thr ms = true ↔ (thr : ℝ) ≤ Real.sqrt (ms : ℝ) := by
  unfold cmpSqrtGe
  simp only [Bool.or_eq_true, decide_eq_true_eq]
  constructor
  · rintro (h | h)
    · exact le_trans (by exact_mod_cast h) (Real.sqrt_nonneg _)
    · have h' : ((thr : ℝ)) ^ 2 ≤ (ms : ℝ) := by exact_mod_cast h
      rcases le_or_lt thr 0 with h0 | h0
      · exact le_trans (by exact_mod_cast h0) (Real.sqrt_nonneg _)
      · exact (Real.le_sqrt (by exact_mod_cast h0.le) (by exact_mod_cast hms)).mpr h'
  · intro h
    rcases le_or_lt thr 0 with h0 | h0
    · exact Or.inl h0
    · refine Or.inr ?_
      have h2 : ((thr : ℝ)) ^ 2 ≤ (ms : ℝ) :=
        (Real.le_sqrt (by exact_mod_cast h0.le) (by exact_mod_cast hms)).mp h
      exact_mod_cast h2

/-! ### Claim theorems: C9, C10, C2 -/

/-- Claim C9: construction fails with an invalid-config error exactly on
out-of-range parameters: `EnergyVAD` accepts precisely the non-negative
thresholds, and `WebRtcVad` accepts precisely sample rates in
8000/16000/32000/48000 combined with frame durations in 10/20/30 ms. -/
theorem constructors_validate_exactly :
    (∀ thr : ℚ, isOkB (EnergyVAD.init thr) = decide (0 ≤ thr)) ∧
    (∀ sr frame_ms : ℤ,
      isOkB (WebRtcVad.init sr frame_ms) =
        (decide (sr = 8000 ∨ sr = 16000 ∨ sr = 32000 ∨ sr = 48000) &&
         decide (frame_ms = 10 ∨ frame_ms = 20 ∨ frame_ms = 30))) := by
  constructor
  · intro thr
    by_cases h : thr < 0
    · simp [EnergyVAD.init, h, isOkB, not_le.mpr h]
    · simp [EnergyVAD.init, h, isOkB, not_lt.mp h]
  · intro sr frame_ms
    by_cases hf : frame_ms = 10 ∨ frame_ms = 20 ∨ frame_ms = 30
    · by_cases hs : sr = 8000 ∨ sr = 16000 ∨ sr = 32000 ∨ sr = 48000
      · simp [WebRtcVad.init, hf, hs, isOkB]
      · simp [WebRtcVad.init, hf, hs, isOkB]
    · simp [WebRtcVad.init, hf, isOkB]

/-- Claim C10: `pcm16_rms` (and hence `EnergyVAD.is_speech`) fails on every
byte string of odd length — the int16 decode rejects it — and returns
normally on every even-length byte string. -/
theorem pcm16_rms_total_iff_even_length :
    ∀ (bs : List ℕ) (v : EnergyVAD),
      ((pcm16_rms_sq bs).isSome = decide (bs.length % 2 = 0)) ∧
      ((v.is_speech bs).isSome = decide (bs.length % 2 = 0)) := by
  intro bs v
  have hrms : (pcm16_rms_sq bs).isSome = decide (bs.length % 2 = 0) := by
    unfold pcm16_rms_sq
    split
    · rename_i h; subst h; simp
    · simp [Option.isSome_map, decodeInt16LE_isSome]
  refine ⟨hrms, ?_⟩
  simpa [EnergyVAD.is_speech, Option.isSome_map] using hrms

/-- Claim C2 counterexample: an `EnergyVAD` successfully constructed with
threshold `0` (a legal, non-negative threshold) returns `true` — not
`false` — on the empty buffer, because `RMS = 0 ≥ 0`. -/
theorem energy_vad_empty_buffer_true_at_zero_threshold :
    EnergyVAD.init 0 = Except.ok ⟨0⟩ ∧
    EnergyVAD.is_speech ⟨0⟩ [] = some true := by
  constructor
  · rfl
  · rfl

/-- Claim C2 (amended): for an `EnergyVAD` with (construction-enforced)
non-negative threshold and a well-formed (even-length) PCM16 buffer,
`is_speech` returns `true` exactly when the RMS — the real square root of
the mean squared sample value, `0` for an empty buffer — is at least the
threshold; the empty buffer yields `false` whenever the threshold is
strictly positive (at threshold `0` it yields `true`). -/
theorem energy_vad_is_speech_iff_rms_ge_threshold
    (v : EnergyVAD) (_hthr : 0 ≤ v.rms_threshold)
    (bs : List ℕ) (heven : bs.length % 2 = 0) :
    (∃ ms : ℚ, pcm16_rms_sq bs = some ms ∧ 0 ≤ ms ∧
      (v.is_speech bs = some true ↔
        (v.rms_threshold : ℝ) ≤ Real.sqrt (ms : ℝ))) ∧
    (0 < v.rms_threshold → v.is_speech [] = some false) := by
  constructor
  · have hsome : (pcm16_rms_sq bs).isSome = true := by
      rw [(pcm16_rms_total_iff_even_length bs v).1]
      simpa using heven
    rcases Option.isSome_iff_exists.mp hsome with ⟨ms, hms⟩
    refine ⟨ms, hms, pcm16_rms_sq_nonneg bs ms hms, ?_⟩
    rw [EnergyVAD.is_speech, hms]
    simp only [Option.map_some', Option.some.injEq]
    exact cmpSqrtGe_iff_real v.rms_threshold ms (pcm16_rms_sq_nonneg bs ms hms)
  · intro hpos
    have h0 : pcm16_rms_sq [] = some 0 := rfl
    rw [EnergyVAD.is_speech, h0]
    simp only [Option.map_some', Option.some.injEq]
    unfold cmpSqrtGe
    simp only [Bool.or_eq_false_iff, decide_eq_false_iff_not, not_le]
    constructor
    · exact hpos
    · have : (0 : ℚ) < v.rms_threshold ^ 2 := by positivity
      exact this

/-- Claim C2 witness: the amended theorem applied at threshold `2` and the
concrete buffer `[0, 16]` (one sample of value `4096`). -/
theorem energy_vad_is_speech_iff_witness :
    0 ≤ (⟨2⟩ : EnergyVAD).rms_threshold ∧ ([0, 16] : List ℕ).length % 2 = 0 ∧
    ((∃ ms : ℚ, pcm16_rms_sq [0, 16] = some ms ∧ 0 ≤ ms ∧
      (EnergyVAD.is_speech ⟨2⟩ [0, 16] = some true ↔
        ((⟨2⟩ : EnergyVAD).rms_threshold : ℝ) ≤ Real.sqrt (ms : ℝ))) ∧
     (0 < (⟨2⟩ : EnergyVAD).rms_threshold →
        EnergyVAD.is_speech ⟨2⟩ [] = some false)) :=
  ⟨by norm_num, by decide,
    energy_vad_is_speech_iff_rms_ge_threshold ⟨2⟩ (by norm_num) [0, 16] (by decide)⟩

/-! ### itosub/app/runtime.py : text filters -/

/-- Loop body of `_dedupe_repeated_words`: walk the words keeping a
case-insensitive run counter; a word is kept while its run length stays
within `max_repeat`. -/
def dedupeGo (max_repeat : ℕ) : List String → Option String → ℕ → List String
  | [], _, _ => []
  | w :: ws, prev, run =>
      let wl := strToLower w
      let run' := if some wl = prev then run + 1 else 1
      let rest := dedupeGo max_repeat ws (some wl) run'
      if run' ≤ max_repeat then w :: rest else rest

/-- Model of `_dedupe_repeated_words` from `itosub/app/runtime.py`. -/
def _dedupe_repeated_words (text : String) (max_repeat : ℕ) : String :=
  let words := pyWords text
  if words = [] then ""
  else pyStrip (joinSp (dedupeGo max_repeat words none 0))

/-- Spec-side characterization (from the spec's words, for comparison with
`_dedupe_repeated_words`): split the word list into maximal runs of
case-insensitively identical words and keep at most `m` words of each run. -/
def collapseRuns (m : ℕ) : List String → List String
  | [] => []
  | w :: ws =>
      ((w :: ws.takeWhile (fun x => strToLower x == strToLower w)).take m)
        ++ collapseRuns m (ws.dropWhile (fun x => strToLower x == strToLower w))
termination_by l => l.length
decreasing_by
  simp only [List.length_cons]
  have h : (List.dropWhile (fun x => strToLower x == strToLower w) ws).length
      ≤ ws.length :=
    (List.dropWhile_sublist (fun x => strToLower x == strToLower w)).length_le
  omega

theorem collapseRuns_nil (m : ℕ) : collapseRuns m ([] : List String) = [] := by
  rw [collapseRuns]

theorem collapseRuns_cons (m : ℕ) (w : String) (ws : List String) :
    collapseRuns m (w :: ws) =
      ((w :: ws.takeWhile (fun x => strToLower x == strToLower w)).take m)
        ++ collapseRuns m (ws.dropWhile (fun x => strToLower x == strToLower w)) := by
  rw [collapseRuns]

/-- Terminal-punctuation test of `_PUNCT_END` (`[.!?]$`) in
`itosub/app/runtime.py`. -/
def endsSentencePunct (t : String) : Bool :=
  match t.data.getLast? with
  | some c => c == '.' || c == '!' || c == '?'
  | none => false

/-- Model of `_is_low_value_fragment` from `itosub/app/runtime.py`. -/
def _is_low_value_fragment (text : String) : Bool :=
  let t := pyStrip text
  if t = "" then true
  else if (pyWords t).length = 1 ∧ endsSentencePunct t = false then true
  else if t.length ≤ 2 then true
  else false

theorem dedupeGo_run (m : ℕ) :
    ∀ (ws : List String) (wl : String) (k : ℕ),
      dedupeGo m ws (some wl) k =
        (ws.takeWhile (fun x => strToLower x == wl)).take (m - k)
          ++ collapseRuns m (ws.dropWhile (fun x => strToLower x == wl))
  | [], wl, k => by simp [dedupeGo, collapseRuns_nil]
  | x :: rest, wl, k => by
      by_cases h : strToLower x = wl
      · have ih := dedupeGo_run m rest wl (k + 1)
        subst h
        rw [show dedupeGo m (x :: rest) (some (strToLower x)) k
            = (if k + 1 ≤ m then
                x :: dedupeGo m rest (some (strToLower x)) (k + 1)
              else dedupeGo m rest (some (strToLower x)) (k + 1)) from by
          simp [dedupeGo]]
        rw [ih]
        simp only [List.takeWhile_cons, beq_self_eq_true, if_pos, List.dropWhile_cons]
        by_cases hk : k + 1 ≤ m
        · have hmk : m - k = (m - (k + 1)) + 1 := by omega
          simp [hk, hmk]
        · have hmk : m - k = 0 := by omega
          have hmk1 : m - (k + 1) = 0 := by omega
          simp [hk, hmk, hmk1]
      · have ih := dedupeGo_run m rest (strToLower x) 1
        have hb : (strToLower x == wl) = false := by
          simpa using h
        rw [show dedupeGo m (x :: rest) (some wl) k
            = (if 1 ≤ m then
                x :: dedupeGo m rest (some (strToLower x)) 1
              else dedupeGo m rest (some (strToLower x)) 1) from by
          simp [dedupeGo, h]]
        rw [ih]
        simp only [List.takeWhile_cons, hb, List.dropWhile_cons,
          Bool.false_eq_true, if_false, List.take_nil, List.nil_append]
        rw [collapseRuns_cons]
        rcases m with _ | m'
        · simp
        · simp [List.take_succ_cons, Nat.add_sub_cancel]

theorem dedupe_eq_collapse (m : ℕ) (ws : List String) :
    dedupeGo m ws none 0 = collapseRuns m ws := by
  cases ws with
  | nil => simp [dedupeGo, collapseRuns_nil]
  | cons w rest =>
      rw [show dedupeGo m (w :: rest) none 0
          = (if 1 ≤ m then
              w :: dedupeGo m rest (some (strToLower w)) 1
            else dedupeGo m rest (some (strToLower w)) 1) from by
        simp [dedupeGo]]
      rw [dedupeGo_run m rest (strToLower w) 1]
      rw [collapseRuns_cons]
      rcases m with _ | m'
      · simp
      · simp [List.take_succ_cons, Nat.add_sub_cancel]

/-- Claim C8: the text filter collapses every run of case-insensitively
identical words down to at most 2 occurrences (in particular
`dedupeRepeatedWords "go go go now" 2 = "go go now"`), and classifies a
fragment as low-value exactly when it strips to empty, is a single word
without terminal `.`/`!`/`?`, or has at most 2 characters after stripping
(so `"uh"` is low-value and `"hello world"` is not). -/
theorem text_filter_dedupe_and_low_value :
    (∀ text : String,
      _dedupe_repeated_words text 2 =
        pyStrip (joinSp (collapseRuns 2 (pyWords text)))) ∧
    _dedupe_repeated_words "go go go now" 2 = "go go now" ∧
    (∀ text : String, _is_low_value_fragment text = true ↔
      (pyStrip text = "" ∨
       ((pyWords (pyStrip text)).length = 1 ∧
         endsSentencePunct (pyStrip text) = false) ∨
       (pyStrip text).length ≤ 2)) ∧
    _is_low_value_fragment "uh" = true ∧
    _is_low_value_fragment "hello world" = false := by
  refine ⟨?_, by decide, ?_, by decide, by decide⟩
  · intro text
    unfold _dedupe_repeated_words
    rcases hw : pyWords text with _ | ⟨w, rest⟩
    · simp [joinSp, collapseRuns, pyStrip]
    · rw [if_neg (by simp), dedupe_eq_collapse]
  · intro text
    unfold _is_low_value_fragment
    by_cases h1 : pyStrip text = ""
    · simp [h1]
    · rw [if_neg h1]
      by_cases h2 : (pyWords (pyStrip text)).length = 1 ∧
          endsSentencePunct (pyStrip text) = false
      · simp [h1, h2]
      · rw [if_neg h2]
        by_cases h3 : (pyStrip text).length ≤ 2
        · simp [h1, h2, h3]
        · simp [h1, h2, h3]

/-! ### Bounded drop-oldest queues
(`_queue_put_drop_oldest` in `itosub/app/runtime.py`, `SubtitleBus` in
`itosub/ui/bridge.py`) -/

/-- Model of `queue.Queue.put_nowait` on the list model: a `maxsize <= 0` Python queue
is unbounded; otherwise admission requires the queue to be below capacity. -/
def queuePut? (maxsize : ℤ) (q : List α) (x : α) : Option (List α) :=
  if maxsize ≤ 0 ∨ (q.length : ℤ) < maxsize then some (q ++ [x]) else none

/-- Model of `queue.Queue.get_nowait` on the list model. -/
def queueGet? (q : List α) : Option (α × List α) :=
  match q with
  | [] => none
  | x :: rest => some (x, rest)

/-- Model of `_queue_put_drop_oldest` from `itosub/app/runtime.py`:
non-blocking put; on `Full`, evict one oldest item and retry, reporting
that a drop happened. -/
def _queue_put_drop_oldest (maxsize : ℤ) (q : List α) (item : α) : List α × Bool :=
  match queuePut? maxsize q item with
  | some q1 => (q1, false)
  | none =>
      match queueGet? q with
      | none => (q, false)
      | some (_, q1) =>
          match queuePut? maxsize q1 item with
          | some q2 => (q2, true)
          | none => (q1, true)

/-- Model of `SubtitleBus.push` from `itosub/ui/bridge.py`: the same
drop-oldest admission, with no drop reporting. -/
def subtitleBusPush (maxsize : ℤ) (q : List α) (line : α) : List α :=
  match queuePut? maxsize q line with
  | some q1 => q1
  | none =>
      match queueGet? q with
      | none => q
      | some (_, q1) =>
          match queuePut? maxsize q1 line with
          | some q2 => q2
          | none => q1

/-- Sequential pushes through `_queue_put_drop_oldest`, returning the final
queue and the number of reported drops. -/
def putDropOldestAll (maxsize : ℤ) : List α → List α → List α × ℕ
  | q, [] => (q, 0)
  | q, x :: xs =>
      let s := _queue_put_drop_oldest maxsize q x
      let r := putDropOldestAll maxsize s.1 xs
      (r.1, (if s.2 then 1 else 0) + r.2)

/-- Queue contents after each push in a sequence of pushes. -/
def putDropOldestStates (maxsize : ℤ) : List α → List α → List (List α)
  | _, [] => []
  | q, x :: xs =>
      let q' := (_queue_put_drop_oldest maxsize q x).1
      q' :: putDropOldestStates maxsize q' xs

/-- Sequential pushes through `SubtitleBus.push`. -/
def busPushAll (maxsize : ℤ) : List α → List α → List α
  | q, [] => q
  | q, x :: xs => busPushAll maxsize (subtitleBusPush maxsize q x) xs

/-- Draining a queue with `get_nowait` until `Empty`: the popped items in
order, and the remaining queue. -/
def drainAll : (q : List α) → List α × List α
  | [] => ([], [])
  | x :: rest =>
      let r := drainAll rest
      (x :: r.1, r.2)

theorem drainAll_eq (q : List α) : drainAll q = (q, []) := by
  induction q with
  | nil => rfl
  | cons x rest ih => simp [drainAll, ih]

theorem subtitleBusPush_eq (maxsize : ℤ) (q : List α) (x : α) :
    subtitleBusPush maxsize q x = (_queue_put_drop_oldest maxsize q x).1 := by
  unfold subtitleBusPush _queue_put_drop_oldest
  cases hp : queuePut? maxsize q x with
  | some q1 => simp
  | none =>
      simp only
      cases hg : queueGet? q with
      | none => simp
      | some p =>
          obtain ⟨a, q1⟩ := p
          simp only
          cases hp2 : queuePut? maxsize q1 x with
          | some q2 => simp
          | none => simp

theorem busPushAll_eq (maxsize : ℤ) (q xs : List α) :
    busPushAll maxsize q xs = (putDropOldestAll maxsize q xs).1 := by
  induction xs generalizing q with
  | nil => rfl
  | cons x xs ih => simp [busPushAll, putDropOldestAll, subtitleBusPush_eq, ih]

theorem put_drop_oldest_step (cap : ℕ) (hcap : 1 ≤ cap) (q : List α) (x : α)
    (hq : q.length ≤ cap) :
    (q.length < cap ∧ _queue_put_drop_oldest (cap : ℤ) q x = (q ++ [x], false)) ∨
    (q.length = cap ∧ _queue_put_drop_oldest (cap : ℤ) q x = (q.tail ++ [x], true)) := by
  have hc0 : ¬((cap : ℤ) ≤ 0) := by
    simp only [not_le]
    exact_mod_cast hcap
  by_cases hlt : q.length < cap
  · left
    refine ⟨hlt, ?_⟩
    have hput : queuePut? (cap : ℤ) q x = some (q ++ [x]) := by
      unfold queuePut?
      rw [if_pos (Or.inr (by exact_mod_cast hlt))]
    unfold _queue_put_drop_oldest
    rw [hput]
  · right
    have heq : q.length = cap := by omega
    refine ⟨heq, ?_⟩
    have hne : q ≠ [] := by
      intro h
      rw [h] at heq
      simp only [List.length_nil] at heq
      omega
    obtain ⟨y, q', rfl⟩ := List.exists_cons_of_ne_nil hne
    simp only [List.length_cons] at heq
    have hput : queuePut? (cap : ℤ) (y :: q') x = none := by
      unfold queuePut?
      rw [if_neg]
      rintro (h | h)
      · exact hc0 h
      · rw [← heq] at h
        simp at h
    have hput2 : queuePut? (cap : ℤ) q' x = some (q' ++ [x]) := by
      unfold queuePut?
      rw [if_pos]
      right
      have : q'.length < cap := by omega
      exact_mod_cast this
    unfold _queue_put_drop_oldest
    rw [hput]
    simp [queueGet?, hput2]

theorem putDropOldestAll_spec (cap : ℕ) (hcap : 1 ≤ cap) :
    ∀ (xs q : List α), q.length ≤ cap →
      putDropOldestAll (cap : ℤ) q xs =
        ((q ++ xs).drop (q.length + xs.length - cap), q.length + xs.length - cap)
  | [], q => by
      intro hq
      simp only [putDropOldestAll, List.append_nil, List.length_nil, Nat.add_zero]
      have h0 : q.length - cap = 0 := by omega
      rw [h0]
      simp
  | x :: xs, q => by
      intro hq
      rcases put_drop_oldest_step cap hcap q x hq with ⟨hlt, hstep⟩ | ⟨heq, hstep⟩
      · have ih := putDropOldestAll_spec cap hcap xs (q ++ [x]) (by simp; omega)
        simp only [putDropOldestAll, hstep, if_neg (by simp : ¬(false = true)), ih]
        have e1 : q ++ [x] ++ xs = q ++ x :: xs := by simp
        have e2 : (q ++ [x]).length + xs.length - cap
            = q.length + (x :: xs).length - cap := by simp; omega
        rw [e1, e2]
        simp
      · have hne : q ≠ [] := by
          intro h
          rw [h] at heq
          simp only [List.length_nil] at heq
          omega
        obtain ⟨y, q', rfl⟩ := List.exists_cons_of_ne_nil hne
        simp only [List.length_cons] at heq
        have ih := putDropOldestAll_spec cap hcap xs (q' ++ [x]) (by
          simp only [List.length_append, List.length_cons, List.length_nil]
          omega)
        simp only [List.tail_cons] at hstep
        simp only [putDropOldestAll, hstep, if_pos rfl, ih]
        have e1 : q' ++ [x] ++ xs = q' ++ x :: xs := by simp
        have e2 : (q' ++ [x]).length + xs.length - cap = xs.length := by
          simp only [List.length_append, List.length_cons, List.length_nil]
          omega
        have e3 : (y :: q').length + (x :: xs).length - cap = xs.length + 1 := by
          simp only [List.length_cons]
          omega
        rw [e1, e2, e3]
        rw [List.cons_append, List.drop_succ_cons]
        simp [Nat.add_comm]

theorem putDropOldest_length_le (cap : ℕ) (hcap : 1 ≤ cap) (q : List α) (x : α)
    (hq : q.length ≤ cap) :
    ((_queue_put_drop_oldest (cap : ℤ) q x).1).length ≤ cap := by
  rcases put_drop_oldest_step cap hcap q x hq with ⟨hlt, hstep⟩ | ⟨heq, hstep⟩
  · rw [hstep]
    simp only [List.length_append, List.length_cons, List.length_nil]
    omega
  · rw [hstep]
    cases q with
    | nil =>
        simp only [List.length_nil] at heq
        omega
    | cons a l =>
        simp only [List.length_cons] at heq
        simp only [List.tail_cons, List.length_append, List.length_cons,
          List.length_nil]
        omega

theorem putDropOldestStates_bounded (cap : ℕ) (hcap : 1 ≤ cap) :
    ∀ (xs q : List α), q.length ≤ cap →
      ∀ s ∈ putDropOldestStates (cap : ℤ) q xs, s.length ≤ cap
  | [], q => by
      intro _ s hs
      simp [putDropOldestStates] at hs
  | x :: xs, q => by
      intro hq s hs
      simp only [putDropOldestStates, List.mem_cons] at hs
      have hq' := putDropOldest_length_le cap hcap q x hq
      rcases hs with rfl | hs
      · exact hq'
      · exact putDropOldestStates_bounded cap hcap xs _ hq' s hs

/-- Claim C3: pushing `capacity + k` items into an initially empty
drop-oldest queue of capacity `≥ 1` — through `_queue_put_drop_oldest` or
through `SubtitleBus.push` — reports exactly `k` drops (on the job queue,
which reports them), never lets the queue exceed its capacity, leaves
exactly the last `capacity` items in FIFO order so that a full drain
yields them in insertion order, and a pop of the emptied queue returns
`None`. -/
theorem drop_oldest_queue_overflow (α : Type) (cap k : ℕ) (hcap : 1 ≤ cap)
    (xs : List α) (hlen : xs.length = cap + k) :
    (putDropOldestAll (cap : ℤ) [] xs).2 = k ∧
    (putDropOldestAll (cap : ℤ) [] xs).1 = xs.drop k ∧
    (putDropOldestAll (cap : ℤ) [] xs).1.length = cap ∧
    (∀ s ∈ putDropOldestStates (cap : ℤ) ([] : List α) xs, s.length ≤ cap) ∧
    drainAll (putDropOldestAll (cap : ℤ) [] xs).1 = (xs.drop k, []) ∧
    queueGet? (drainAll (putDropOldestAll (cap : ℤ) [] xs).1).2 = none ∧
    busPushAll (cap : ℤ) [] xs = xs.drop k := by
  have hspec := putDropOldestAll_spec cap hcap xs [] (by simp)
  have hcount : ([] : List α).length + xs.length - cap = k := by
    simp only [List.length_nil, Nat.zero_add, hlen]
    omega
  rw [hcount] at hspec
  simp only [List.nil_append] at hspec
  refine ⟨?_, ?_, ?_, ?_, ?_, ?_, ?_⟩
  · rw [hspec]
  · rw [hspec]
  · rw [hspec]
    simp only [List.length_drop, hlen]
    omega
  · exact putDropOldestStates_bounded cap hcap xs [] (by simp)
  · rw [hspec, drainAll_eq]
  · rw [hspec, drainAll_eq]
    rfl
  · rw [busPushAll_eq, hspec]

/-- Claim C3 witness: a queue of capacity 2 receiving the three items
1, 2, 3 drops exactly one item and drains to `[2, 3]`. -/
theorem drop_oldest_queue_overflow_witness :
    1 ≤ 2 ∧ ([1, 2, 3] : List ℕ).length = 2 + 1 ∧
    ((putDropOldestAll (2 : ℤ) [] [1, 2, 3]).2 = 1 ∧
     (putDropOldestAll (2 : ℤ) [] [1, 2, 3]).1 = ([1, 2, 3] : List ℕ).drop 1 ∧
     (putDropOldestAll (2 : ℤ) [] [1, 2, 3]).1.length = 2 ∧
     (∀ s ∈ putDropOldestStates (2 : ℤ) ([] : List ℕ) [1, 2, 3], s.length ≤ 2) ∧
     drainAll (putDropOldestAll (2 : ℤ) [] [1, 2, 3]).1 = (([1, 2, 3] : List ℕ).drop 1, []) ∧
     queueGet? (drainAll (putDropOldestAll (2 : ℤ) [] [1, 2, 3]).1).2 = none ∧
     busPushAll (2 : ℤ) [] [1, 2, 3] = ([1, 2, 3] : List ℕ).drop 1) :=
  ⟨by decide, by decide,
    drop_oldest_queue_overflow ℕ 2 1 (by decide) [1, 2, 3] (by decide)⟩

/-! ### itosub/ui/overlay_qt.py : line merge policy -/

/-- Structure `SubtitleLine` from `itosub/ui/overlay_qt.py`. -/
structure SubtitleLine where
  en : String
  ja : String
  t0 : Option ℚ := none
  t1 : Option ℚ := none
deriving DecidableEq

/-- Python `out[-n:]` for `n ≥ 1`: the last `n` elements. -/
def takeLast (n : ℕ) (l : List α) : List α := l.drop (l.length - n)

/-- First index satisfying `p`. -/
def findFirstIdx? (p : α → Bool) : List α → Option ℕ
  | [] => none
  | x :: xs => if p x then some 0 else (findFirstIdx? p xs).map (· + 1)

/-- Index found by scanning from the end (`for i in range(len(out)-1, -1, -1)`). -/
def findLastIdx? (p : α → Bool) (l : List α) : Option ℕ :=
  (findFirstIdx? p l.reverse).map (fun j => l.length - 1 - j)

/-- The replace-scan predicate of `merge_subtitle_line`: same stripped
English, empty stripped translation, same time window. -/
def pendingMatch (prev new_line : SubtitleLine) : Bool :=
  (pyStrip prev.en == pyStrip new_line.en) && (pyStrip prev.ja == "") &&
    decide (prev.t0 = new_line.t0) && decide (prev.t1 = new_line.t1)

/-- Model of `merge_subtitle_line` from `itosub/ui/overlay_qt.py`. -/
def merge_subtitle_line (lines : List SubtitleLine) (new_line : SubtitleLine)
    (max_lines : ℤ) : List SubtitleLine :=
  let keep := (max 1 max_lines).toNat
  if lines.any (fun prev => prev == new_line) then takeLast keep lines
  else if new_line.ja ≠ "" then
    match findLastIdx? (fun prev => pendingMatch prev new_line) lines with
    | some i => takeLast keep (lines.set i new_line)
    | none => takeLast keep (lines ++ [new_line])
  else takeLast keep (lines ++ [new_line])

theorem takeLast_of_le (n : ℕ) (l : List α) (h : l.length ≤ n) :
    takeLast n l = l := by
  unfold takeLast
  have : l.length - n = 0 := by omega
  rw [this, List.drop_zero]

theorem length_takeLast_le (n : ℕ) (l : List α) : (takeLast n l).length ≤ n := by
  unfold takeLast
  rw [List.length_drop]
  omega

theorem set_concat (l : List α) (a x : α) :
    (l ++ [a]).set l.length x = l ++ [x] := by
  induction l with
  | nil => rfl
  | cons b t ih => simp [List.set, ih]

theorem findLastIdx?_concat (p : α → Bool) (l : List α) (x : α) (hx : p x = true) :
    findLastIdx? p (l ++ [x]) = some l.length := by
  unfold findLastIdx?
  rw [List.reverse_append]
  simp [findFirstIdx?, hx]

/-- Claim C4 counterexample: starting from a list that already holds a
translated line with English `"a"` and window `(0, 1)`, merging a pending
`("a", "", 0, 1)` and then the translated `("a", "y", 0, 1)` leaves two
lines carrying that (English, t0, t1) — not exactly one. -/
theorem merge_subtitle_line_key_not_unique :
    (merge_subtitle_line
        (merge_subtitle_line [⟨"a", "x", some 0, some 1⟩] ⟨"a", "", some 0, some 1⟩ 4)
        ⟨"a", "y", some 0, some 1⟩ 4)
      = [⟨"a", "x", some 0, some 1⟩, ⟨"a", "y", some 0, some 1⟩] ∧
    (merge_subtitle_line
        (merge_subtitle_line [⟨"a", "x", some 0, some 1⟩] ⟨"a", "", some 0, some 1⟩ 4)
        ⟨"a", "y", some 0, some 1⟩ 4).countP
      (fun l => l.en == "a" && decide (l.t0 = some 0) && decide (l.t1 = some 1)) = 2 := by
  constructor
  · rfl
  · rfl

/-- Claim C4 (amended): provided no line of the initial list already carries
the pending line's (stripped English, t0, t1) key and `maxLines ≥ 1`,
merging a pending line (empty translation) and then a line with the same
English text, same `(t0, t1)` and a non-empty translation yields exactly one
line for that key — the translated one, substituted in place at the pending
entry's position (the end) rather than appended.  Every merge result is
trimmed to the most recent `max 1 maxLines` entries, and merging a line
identical to an existing one adds nothing (it returns the trimmed input). -/
theorem merge_replaces_pending_in_place
    (lines : List SubtitleLine) (p q : SubtitleLine) (m : ℤ) (hm : 1 ≤ m)
    (h0 : ∀ l ∈ lines, ¬(pyStrip l.en = pyStrip p.en ∧ l.t0 = p.t0 ∧ l.t1 = p.t1))
    (hpja : p.ja = "") (hqja : q.ja ≠ "")
    (hen : q.en = p.en) (ht0 : q.t0 = p.t0) (ht1 : q.t1 = p.t1) :
    (merge_subtitle_line lines p m = takeLast m.toNat (lines ++ [p])) ∧
    (merge_subtitle_line (merge_subtitle_line lines p m) q m
      = (merge_subtitle_line lines p m).dropLast ++ [q]) ∧
    ((merge_subtitle_line (merge_subtitle_line lines p m) q m).countP
      (fun l => (pyStrip l.en == pyStrip p.en) && decide (l.t0 = p.t0) &&
        decide (l.t1 = p.t1)) = 1) ∧
    ((merge_subtitle_line (merge_subtitle_line lines p m) q m).getLast? = some q) ∧
    (∀ (ls : List SubtitleLine) (nl : SubtitleLine) (mm : ℤ),
      (merge_subtitle_line ls nl mm).length ≤ (max 1 mm).toNat) ∧
    (∀ (ls : List SubtitleLine) (nl : SubtitleLine) (mm : ℤ), nl ∈ ls →
      merge_subtitle_line ls nl mm = takeLast (max 1 mm).toNat ls) := by
  have hkeep : (max 1 m).toNat = m.toNat := by
    rw [max_eq_right hm]
  have hkeep1 : 1 ≤ m.toNat := by omega
  -- Step 1: merging the pending line appends it.
  have hdup1 : lines.any (fun prev => prev == p) = false := by
    rw [List.any_eq_false]
    intro l hl
    simp only [beq_iff_eq]
    intro hlp
    exact h0 l hl (by rw [hlp]; exact ⟨rfl, rfl, rfl⟩)
  have hL1 : merge_subtitle_line lines p m = takeLast m.toNat (lines ++ [p]) := by
    unfold merge_subtitle_line
    rw [hdup1]
    simp only [Bool.false_eq_true, if_false, hkeep]
    rw [if_neg (by simpa using hpja)]
  -- Structure of the first merge result.
  set j := (lines ++ [p]).length - m.toNat with hj
  have hjle : j ≤ lines.length := by
    simp only [hj, List.length_append, List.length_cons, List.length_nil]
    omega
  have hL1' : merge_subtitle_line lines p m = lines.drop j ++ [p] := by
    rw [hL1]
    unfold takeLast
    rw [← hj, List.drop_append_of_le_length hjle]
  have hL1len : (merge_subtitle_line lines p m).length ≤ m.toNat := by
    rw [hL1]
    exact length_takeLast_le _ _
  -- Step 2: the translated line is not a duplicate of anything in L1.
  have hdup2 : (merge_subtitle_line lines p m).any (fun prev => prev == q) = false := by
    rw [List.any_eq_false]
    intro l hl
    rw [hL1'] at hl
    simp only [beq_iff_eq]
    intro hlq
    rcases List.mem_append.mp hl with hl' | hl'
    · have hmem : l ∈ lines := List.mem_of_mem_drop hl'
      refine h0 l hmem ?_
      rw [hlq, hen, ht0, ht1]
      exact ⟨rfl, rfl, rfl⟩
    · have : l = p := by simpa using hl'
      rw [this] at hlq
      rw [hlq] at hpja
      exact hqja hpja
  -- The pending line matches the replace scan.
  have hpm : pendingMatch p q = true := by
    have hstrip : pyStrip "" = "" := rfl
    unfold pendingMatch
    rw [hen, ht0, ht1, hpja, hstrip]
    simp
  have hdup2' : ((lines.drop j ++ [p]).any fun prev => prev == q) = false := by
    rw [← hL1']
    exact hdup2
  have hfind' : findLastIdx? (fun prev => pendingMatch prev q)
      (lines.drop j ++ [p]) = some (lines.drop j).length :=
    findLastIdx?_concat _ _ _ hpm
  have hlen' : (lines.drop j ++ [p]).length ≤ m.toNat := by
    rw [← hL1']
    exact hL1len
  have hL2 : merge_subtitle_line (lines.drop j ++ [p]) q m
      = lines.drop j ++ [q] := by
    unfold merge_subtitle_line
    rw [hdup2']
    simp only [Bool.false_eq_true, if_false, hkeep]
    rw [if_pos hqja, hfind']
    show takeLast m.toNat ((List.drop j lines ++ [p]).set (List.drop j lines).length q)
        = List.drop j lines ++ [q]
    rw [set_concat]
    apply takeLast_of_le
    simp only [List.length_append, List.length_cons, List.length_nil] at hlen' ⊢
    omega
  refine ⟨hL1, ?_, ?_, ?_, ?_, ?_⟩
  · rw [hL1', hL2, List.dropLast_concat]
  · rw [hL1', hL2, List.countP_append]
    have hz : (lines.drop j).countP
        (fun l => (pyStrip l.en == pyStrip p.en) && decide (l.t0 = p.t0) &&
          decide (l.t1 = p.t1)) = 0 := by
      rw [List.countP_eq_zero]
      intro l hl
      have hmem : l ∈ lines := List.mem_of_mem_drop hl
      have := h0 l hmem
      simp only [Bool.and_eq_true, beq_iff_eq, decide_eq_true_eq]
      rintro ⟨⟨he, h1⟩, h2⟩
      exact this ⟨he, h1, h2⟩
    rw [hz]
    simp only [List.countP_cons, List.countP_nil, Nat.zero_add]
    rw [if_pos]
    rw [hen, ht0, ht1]
    simp
  · rw [hL1', hL2]
    simp
  · intro ls nl mm
    unfold merge_subtitle_line
    split
    · exact length_takeLast_le _ _
    · split
      · split
        · exact length_takeLast_le _ _
        · exact length_takeLast_le _ _
      · exact length_takeLast_le _ _
  · intro ls nl mm hmem
    unfold merge_subtitle_line
    rw [if_pos]
    rw [List.any_eq_true]
    exact ⟨nl, hmem, by simp⟩

/-- Claim C4 witness: the amended theorem at the empty initial list,
pending `("hello", "", 0, 1)`, translated `("hello", "ja", 0, 1)`,
`maxLines = 4`. -/
theorem merge_replaces_pending_in_place_witness :
    (1 : ℤ) ≤ 4 ∧
    (∀ l ∈ ([] : List SubtitleLine),
      ¬(pyStrip l.en = pyStrip "hello" ∧ l.t0 = some 0 ∧ l.t1 = some 1)) ∧
    ("" : String) = "" ∧ ("ja" : String) ≠ "" ∧
    ((merge_subtitle_line [] ⟨"hello", "", some 0, some 1⟩ 4
        = takeLast (4 : ℤ).toNat ([] ++ [⟨"hello", "", some 0, some 1⟩])) ∧
     (merge_subtitle_line (merge_subtitle_line [] ⟨"hello", "", some 0, some 1⟩ 4)
          ⟨"hello", "ja", some 0, some 1⟩ 4
        = (merge_subtitle_line [] ⟨"hello", "", some 0, some 1⟩ 4).dropLast
            ++ [⟨"hello", "ja", some 0, some 1⟩]) ∧
     ((merge_subtitle_line (merge_subtitle_line [] ⟨"hello", "", some 0, some 1⟩ 4)
          ⟨"hello", "ja", some 0, some 1⟩ 4).countP
        (fun l => (pyStrip l.en == pyStrip ("hello" : String)) &&
          decide (l.t0 = some 0) && decide (l.t1 = some 1)) = 1) ∧
     ((merge_subtitle_line (merge_subtitle_line [] ⟨"hello", "", some 0, some 1⟩ 4)
          ⟨"hello", "ja", some 0, some 1⟩ 4).getLast?
        = some ⟨"hello", "ja", some 0, some 1⟩) ∧
     (∀ (ls : List SubtitleLine) (nl : SubtitleLine) (mm : ℤ),
       (merge_subtitle_line ls nl mm).length ≤ (max 1 mm).toNat) ∧
     (∀ (ls : List SubtitleLine) (nl : SubtitleLine) (mm : ℤ), nl ∈ ls →
       merge_subtitle_line ls nl mm = takeLast (max 1 mm).toNat ls)) :=
  ⟨by decide, by simp, rfl, by decide,
    merge_replaces_pending_in_place [] ⟨"hello", "", some 0, some 1⟩
      ⟨"hello", "ja", some 0, some 1⟩ 4 (by decide) (by simp) rfl (by decide)
      rfl rfl rfl⟩

/-! ### itosub/nlp/segmenter.py -/

/-- Structure `Line` from `itosub/nlp/segmenter.py`. -/
structure Line where
  text : String
  t0 : ℚ
  t1 : ℚ
deriving DecidableEq

/-- Regex `_END_PUNCT = [.!?。！？]$`: the merged text ends with terminal
punctuation. -/
def endsCommitPunct (s : String) : Bool :=
  match s.data.getLast? with
  | some c => c == '.' || c == '!' || c == '?' || c == '。' || c == '！' || c == '？'
  | none => false

/-- State of a `SubtitleSegmenter` instance. -/
structure SegState where
  gap_sec : ℚ
  hard_max_chars : ℤ
  buf : List String
  t0? : Option ℚ
  t1? : Option ℚ
  last_end? : Option ℚ
deriving DecidableEq

/-- Constructor `SubtitleSegmenter.__init__`. -/
def SegState.init (gap_sec : ℚ) (hard_max_chars : ℤ) : SegState :=
  ⟨gap_sec, hard_max_chars, [], none, none, none⟩

/-- Model of `SubtitleSegmenter._reset`. -/
def SegState.reset (s : SegState) : SegState :=
  { s with buf := [], t0? := none, t1? := none, last_end? := none }

/-- Model of `SubtitleSegmenter.flush`: commit the buffered fragments, if any. -/
def SegState.flush (s : SegState) : SegState × List Line :=
  if s.buf = [] ∨ s.t0? = none ∨ s.t1? = none then (s.reset, [])
  else (s.reset, [⟨pyStrip (joinSp s.buf), s.t0?.getD 0, s.t1?.getD 0⟩])

/-- The pause-boundary test of `push`:
`self._last_end is not None and (t0 - self._last_end) > self.gap_sec`. -/
def gapTrigger (gap : ℚ) (last_end? : Option ℚ) (t0 : ℚ) : Bool :=
  match last_end? with
  | some le => decide (gap < t0 - le)
  | none => false

/-- Model of `SubtitleSegmenter.push`.  The source's two commit branches (terminal
punctuation; emergency length commit) return identical values, here a single
disjunction. -/
def SegState.push (s : SegState) (text : String) (t0 t1 : ℚ) : SegState × List Line :=
  let text' := pyStrip text
  if text' = "" then (s, [])
  else
    let fl := if gapTrigger s.gap_sec s.last_end? t0 then s.flush else (s, [])
    let s1 := fl.1
    let newT0 := s1.t0?.getD t0
    let buf2 := s1.buf ++ [text']
    let merged := pyStrip (joinSp buf2)
    let s2 := { s1 with buf := buf2, t0? := some newT0, t1? := some t1,
                        last_end? := some t1 }
    if endsCommitPunct merged ∨ s2.hard_max_chars ≤ (merged.length : ℤ) then
      (s2.reset, fl.2 ++ [⟨merged, newT0, t1⟩])
    else (s2, fl.2)

/-- A call against one segmenter instance: a `push` or a `flush`. -/
inductive SegEvent where
  | push (text : String) (t0 t1 : ℚ)
  | flush
deriving DecidableEq

/-- Dispatch one call. -/
def SegState.apply (s : SegState) : SegEvent → SegState × List Line
  | SegEvent.push text t0 t1 => s.push text t0 t1
  | SegEvent.flush => s.flush

/-- Run a sequence of calls, collecting every emitted line in order. -/
def runEvents (s : SegState) : List SegEvent → SegState × List Line
  | [] => (s, [])
  | e :: evs =>
      let r1 := s.apply e
      let r2 := runEvents r1.1 evs
      (r2.1, r1.2 ++ r2.2)

/-- Componentwise ordering of line windows. -/
def lineLE (a b : Line) : Prop := a.t0 ≤ b.t0 ∧ a.t1 ≤ b.t1

/-- Chronologically well-formed call sequences: every push has `t0 ≤ t1`,
stays at or after the bound `(P0, P1)`, and later pushes do not move
backwards. -/
def ChronoFrom (P0 P1 : ℚ) : List SegEvent → Prop
  | [] => True
  | SegEvent.flush :: rest => ChronoFrom P0 P1 rest
  | SegEvent.push _ t0 t1 :: rest =>
      P0 ≤ t0 ∧ P1 ≤ t1 ∧ t0 ≤ t1 ∧ ChronoFrom t0 t1 rest

/-- Invariant tying a segmenter state to the lines emitted so far and a
bound `(P0, P1)` that every future push dominates. -/
structure SegInv (s : SegState) (L : List Line) (P0 P1 : ℚ) : Prop where
  chain : List.Chain' lineLE L
  ok : ∀ l ∈ L, l.t0 ≤ l.t1
  le : ∀ a b, s.t0? = some a → s.t1? = some b → a ≤ b
  t0_le : ∀ a, s.t0? = some a → a ≤ P0
  t1_le : ∀ b, s.t1? = some b → b ≤ P1
  last_t0 : ∀ l, L.getLast? = some l → ∀ a, s.t0? = some a → l.t0 ≤ a
  last_t1 : ∀ l, L.getLast? = some l → ∀ b, s.t1? = some b → l.t1 ≤ b
  last_P : ∀ l, L.getLast? = some l → l.t0 ≤ P0 ∧ l.t1 ≤ P1

theorem SegInv.weaken {s : SegState} {L : List Line} {P0 P1 P0' P1' : ℚ}
    (h : SegInv s L P0 P1) (h0 : P0 ≤ P0') (h1 : P1 ≤ P1') :
    SegInv s L P0' P1' where
  chain := h.chain
  ok := h.ok
  le := h.le
  t0_le := fun a ha => (h.t0_le a ha).trans h0
  t1_le := fun b hb => (h.t1_le b hb).trans h1
  last_t0 := h.last_t0
  last_t1 := h.last_t1
  last_P := fun l hl => ⟨(h.last_P l hl).1.trans h0, (h.last_P l hl).2.trans h1⟩

theorem chain'_concat {l : List Line} {x : Line} (hc : List.Chain' lineLE l)
    (hx : ∀ a, l.getLast? = some a → lineLE a x) :
    List.Chain' lineLE (l ++ [x]) := by
  rw [List.chain'_append]
  refine ⟨hc, List.chain'_singleton x, ?_⟩
  intro a ha b hb
  simp only [List.head?_cons, Option.mem_def, Option.some.injEq] at hb
  subst hb
  exact hx a ha

theorem SegInv.flushInv {s : SegState} {L : List Line} {P0 P1 : ℚ}
    (h : SegInv s L P0 P1) :
    SegInv (SegState.flush s).1 (L ++ (SegState.flush s).2) P0 P1 := by
  unfold SegState.flush
  split
  · rename_i hcase
    refine ⟨by simpa using h.chain, by simpa using h.ok, ?_, ?_, ?_, ?_, ?_, ?_⟩
    all_goals simp only [SegState.reset]
    · intro a b ha _; exact absurd ha (by simp)
    · intro a ha; exact absurd ha (by simp)
    · intro b hb; exact absurd hb (by simp)
    · intro l _ a ha; exact absurd ha (by simp)
    · intro l _ b hb; exact absurd hb (by simp)
    · intro l hl
      simpa using h.last_P l (by simpa using hl)
  · rename_i hcase
    push_neg at hcase
    obtain ⟨hbuf, ht0, ht1⟩ := hcase
    rcases Option.ne_none_iff_exists'.mp ht0 with ⟨a, ha⟩
    rcases Option.ne_none_iff_exists'.mp ht1 with ⟨b, hb⟩
    have hab : a ≤ b := h.le a b ha hb
    have hline : lineLE (⟨pyStrip (joinSp s.buf), s.t0?.getD 0, s.t1?.getD 0⟩ : Line)
        = lineLE (⟨pyStrip (joinSp s.buf), a, b⟩ : Line) := by
      rw [ha, hb]
      rfl
    refine ⟨?_, ?_, ?_, ?_, ?_, ?_, ?_, ?_⟩
    · refine chain'_concat h.chain ?_
      intro c hc
      rw [ha, hb]
      simp only [Option.getD_some]
      exact ⟨h.last_t0 c hc a ha, h.last_t1 c hc b hb⟩
    · intro l hl
      rcases List.mem_append.mp hl with hl' | hl'
      · exact h.ok l hl'
      · have : l = ⟨pyStrip (joinSp s.buf), s.t0?.getD 0, s.t1?.getD 0⟩ := by
          simpa using hl'
        rw [this, ha, hb]
        simpa using hab
    · intro a' b' ha' _; exact absurd ha' (by simp [SegState.reset])
    · intro a' ha'; exact absurd ha' (by simp [SegState.reset])
    · intro b' hb'; exact absurd hb' (by simp [SegState.reset])
    · intro l _ a' ha'; exact absurd ha' (by simp [SegState.reset])
    · intro l _ b' hb'; exact absurd hb' (by simp [SegState.reset])
    · intro l hl
      rw [List.getLast?_concat] at hl
      have : l = ⟨pyStrip (joinSp s.buf), s.t0?.getD 0, s.t1?.getD 0⟩ := by
        simpa using hl.symm
      rw [this, ha, hb]
      simp only [Option.getD_some]
      exact ⟨(h.t0_le a ha), (h.t1_le b hb)⟩

theorem SegInv.pushInv {s : SegState} {L : List Line} {P0 P1 : ℚ}
    (h : SegInv s L P0 P1) (text : String) (t0 t1 : ℚ)
    (h0 : P0 ≤ t0) (h1 : P1 ≤ t1) (h01 : t0 ≤ t1) :
    SegInv (s.push text t0 t1).1 (L ++ (s.push text t0 t1).2) t0 t1 := by
  by_cases htext : pyStrip text = ""
  · have he : s.push text t0 t1 = (s, []) := by
      unfold SegState.push
      simp [htext]
    rw [he]
    simpa using h.weaken h0 h1
  · simp only [SegState.push]
    rw [if_neg htext]
    set fl := (if gapTrigger s.gap_sec s.last_end? t0 then SegState.flush s
      else (s, [])) with hfldef
    have hfl : SegInv fl.1 (L ++ fl.2) P0 P1 := by
      rw [hfldef]
      split
      · exact h.flushInv
      · simpa using h
    set newT0 := fl.1.t0?.getD t0 with hn0def
    have hn0 : newT0 ≤ t0 := by
      rcases ht0 : fl.1.t0? with _ | a
      · simp [hn0def, ht0]
      · rw [hn0def, ht0, Option.getD_some]
        exact (hfl.t0_le a ht0).trans h0
    have hn1 : newT0 ≤ t1 := hn0.trans h01
    have hlast0 : ∀ l, (L ++ fl.2).getLast? = some l → l.t0 ≤ newT0 := by
      intro l hl
      rcases ht0 : fl.1.t0? with _ | a
      · rw [hn0def, ht0, Option.getD_none]
        exact (hfl.last_P l hl).1.trans h0
      · rw [hn0def, ht0, Option.getD_some]
        exact hfl.last_t0 l hl a ht0
    have hlast1 : ∀ l, (L ++ fl.2).getLast? = some l → l.t1 ≤ t1 := by
      intro l hl
      exact (hfl.last_P l hl).2.trans h1
    split
    · -- commit: punctuation or hard length
      rw [← List.append_assoc]
      refine ⟨?_, ?_, ?_, ?_, ?_, ?_, ?_, ?_⟩
      · refine chain'_concat hfl.chain ?_
        intro a ha
        exact ⟨hlast0 a ha, hlast1 a ha⟩
      · intro l hl
        rcases List.mem_append.mp hl with hl' | hl'
        · exact hfl.ok l hl'
        · have : l = ⟨pyStrip (joinSp (fl.1.buf ++ [pyStrip text])), newT0, t1⟩ := by
            simpa using hl'
          rw [this]
          exact hn1
      · intro a b ha _
        exact absurd ha (by simp [SegState.reset])
      · intro a ha
        exact absurd ha (by simp [SegState.reset])
      · intro b hb
        exact absurd hb (by simp [SegState.reset])
      · intro l _ a ha
        exact absurd ha (by simp [SegState.reset])
      · intro l _ b hb
        exact absurd hb (by simp [SegState.reset])
      · intro l hl
        rw [List.getLast?_concat] at hl
        have : l = ⟨pyStrip (joinSp (fl.1.buf ++ [pyStrip text])), newT0, t1⟩ := by
          simpa using hl.symm
        rw [this]
        exact ⟨hn0, le_refl t1⟩
    · -- no commit: fragment stays buffered
      refine ⟨hfl.chain, hfl.ok, ?_, ?_, ?_, ?_, ?_, ?_⟩
      · intro a b ha hb
        simp only [Option.some.injEq] at ha hb
        rw [← ha, ← hb]
        exact hn1
      · intro a ha
        simp only [Option.some.injEq] at ha
        rw [← ha]
        exact hn0
      · intro b hb
        simp only [Option.some.injEq] at hb
        rw [← hb]
      · intro l hl a ha
        simp only [Option.some.injEq] at ha
        rw [← ha]
        exact hlast0 l hl
      · intro l hl b hb
        simp only [Option.some.injEq] at hb
        rw [← hb]
        exact hlast1 l hl
      · intro l hl
        exact ⟨(hfl.last_P l hl).1.trans h0, (hfl.last_P l hl).2.trans h1⟩

theorem runEvents_inv :
    ∀ (evs : List SegEvent) (s : SegState) (L : List Line) (P0 P1 : ℚ),
      SegInv s L P0 P1 → ChronoFrom P0 P1 evs →
      ∃ P0' P1', SegInv (runEvents s evs).1 (L ++ (runEvents s evs).2) P0' P1'
  | [], s, L, P0, P1, h, _ => ⟨P0, P1, by simpa [runEvents] using h⟩
  | SegEvent.flush :: evs, s, L, P0, P1, h, hch => by
      have h1 := h.flushInv
      have hch' : ChronoFrom P0 P1 evs := hch
      have ihr := runEvents_inv evs (SegState.flush s).1 (L ++ (SegState.flush s).2)
        P0 P1 h1 hch'
      simpa [runEvents, SegState.apply, List.append_assoc] using ihr
  | SegEvent.push text t0 t1 :: evs, s, L, P0, P1, h, hch => by
      obtain ⟨h0, h1, h01, hch'⟩ := hch
      have hstep := h.pushInv text t0 t1 h0 h1 h01
      have ihr := runEvents_inv evs (s.push text t0 t1).1
        (L ++ (s.push text t0 t1).2) t0 t1 hstep hch'
      simpa [runEvents, SegState.apply, List.append_assoc] using ihr

/-- Claim C1 counterexample: a single push whose own timestamps are reversed
(`t0 = 5 > t1 = 3`) makes `push` emit a line with `t0 > t1`. -/
theorem segmenter_emits_reversed_window :
    ((SegState.init 1 160).push "a." 5 3).2 = [⟨"a.", 5, 3⟩] ∧ ¬((5 : ℚ) ≤ 3) := by
  constructor
  · rfl
  · decide

/-- Claim C1 (amended): for every chronologically well-formed call sequence
— each push satisfies `t0 ≤ t1` and successive pushes have non-decreasing
`t0` and `t1` — every line emitted by `push` or `flush` satisfies
`t0 ≤ t1`, and the `(t0, t1)` windows of successively emitted lines are
monotonically non-decreasing componentwise. -/
theorem segmenter_lines_ordered (gap : ℚ) (hmax : ℤ) (P0 P1 : ℚ)
    (evs : List SegEvent) (h : ChronoFrom P0 P1 evs) :
    (∀ l ∈ (runEvents (SegState.init gap hmax) evs).2, l.t0 ≤ l.t1) ∧
    List.Chain' lineLE (runEvents (SegState.init gap hmax) evs).2 := by
  have hinit : SegInv (SegState.init gap hmax) [] P0 P1 := by
    refine ⟨List.chain'_nil, ?_, ?_, ?_, ?_, ?_, ?_, ?_⟩
    · intro l hl
      exact absurd hl (by simp)
    · intro a b ha _
      exact absurd ha (by simp [SegState.init])
    · intro a ha
      exact absurd ha (by simp [SegState.init])
    · intro b hb
      exact absurd hb (by simp [SegState.init])
    · intro l hl
      exact absurd hl (by simp)
    · intro l hl
      exact absurd hl (by simp)
    · intro l hl
      exact absurd hl (by simp)
  obtain ⟨P0', P1', hend⟩ := runEvents_inv evs (SegState.init gap hmax) [] P0 P1 hinit h
  simp only [List.nil_append] at hend
  exact ⟨hend.ok, hend.chain⟩

/-- Claim C1 witness: the amended theorem on the spec's worked example,
`push "hello there" 1 2`, `push "friend." 3 4`, then `flush`. -/
theorem segmenter_lines_ordered_witness :
    ChronoFrom 1 2 [SegEvent.push "hello there" 1 2, SegEvent.push "friend." 3 4,
      SegEvent.flush] ∧
    ((∀ l ∈ (runEvents (SegState.init 1 160) [SegEvent.push "hello there" 1 2,
        SegEvent.push "friend." 3 4, SegEvent.flush]).2, l.t0 ≤ l.t1) ∧
     List.Chain' lineLE (runEvents (SegState.init 1 160)
       [SegEvent.push "hello there" 1 2, SegEvent.push "friend." 3 4,
        SegEvent.flush]).2) :=
  have hch : ChronoFrom 1 2 [SegEvent.push "hello there" 1 2,
      SegEvent.push "friend." 3 4, SegEvent.flush] := by
    simp only [ChronoFrom]
    refine ⟨by decide, by decide, by decide, by decide, by decide, by decide, trivial⟩
  ⟨hch, segmenter_lines_ordered 1 160 1 2 _ hch⟩

/-! ### itosub/live/live_transcribe.py -/

/-- Structure `AudioChunk` from `itosub/contracts.py`. -/
structure AudioChunk where
  pcm16 : List ℕ
  sample_rate : ℤ
  channels : ℤ
  start_time : ℚ
  duration : ℚ
deriving DecidableEq

/-- Model of `LiveUtteranceTranscriber._duration_from_pcm16`. -/
def _duration_from_pcm16 (pcm16 : List ℕ) (sample_rate channels : ℤ) : ℚ :=
  let bytes_per_second := sample_rate * channels * 2
  if bytes_per_second ≤ 0 then 0
  else (pcm16.length : ℚ) / (bytes_per_second : ℚ)

/-- Configuration of a `LiveUtteranceTranscriber`
(`__init__` enforces `silence_chunks_to_finalize > 0`,
`min_utter_sec ≥ 0`, `max_utter_sec > 0` when set). -/
structure LiveCfg where
  silence_chunks_to_finalize : ℕ
  min_utter_sec : ℚ
  max_utter_sec : Option ℚ
deriving DecidableEq

/-- One entry to `_finalize_utterance`: the accumulated utterance handed
over with its metadata and the finalize reason. -/
structure FinalizeEvent where
  pcm16 : List ℕ
  sr : ℤ
  ch : ℤ
  t0 : ℚ
  reason : String
deriving DecidableEq

/-- Loop state of `LiveUtteranceTranscriber.run`. -/
structure LiveState where
  utter_parts : List (List ℕ)
  utter_t0 : ℚ
  utter_sr : ℤ
  utter_ch : ℤ
  in_utterance : Bool
  trailing_silence : ℕ
  utter_bytes : ℕ
deriving DecidableEq

/-- Initial loop state of `run`. -/
def liveInit : LiveState := ⟨[], 0, 0, 0, false, 0, 0⟩

/-- One iteration of the `run` loop on one chunk.  `isSpeech` is the
injected energy gate (`self.vad.is_speech`); the transcription capability
is opaque, so finalizations are returned as events instead of side
effects. -/
def liveStep (cfg : LiveCfg) (isSpeech : List ℕ → Bool) (s : LiveState)
    (chunk : AudioChunk) : LiveState × List FinalizeEvent :=
  if isSpeech chunk.pcm16 then
    let s0 := if s.in_utterance then s else
      { s with in_utterance := true, utter_parts := [], utter_bytes := 0,
               utter_t0 := chunk.start_time, utter_sr := chunk.sample_rate,
               utter_ch := chunk.channels }
    let s1 := { s0 with utter_parts := s0.utter_parts ++ [chunk.pcm16],
                        utter_bytes := s0.utter_bytes + chunk.pcm16.length,
                        trailing_silence := 0 }
    match cfg.max_utter_sec with
    | some maxSec =>
        let bps : ℤ := s1.utter_sr * s1.utter_ch * 2
        let utter_sec : ℚ := if 0 < bps then (s1.utter_bytes : ℚ) / (bps : ℚ) else 0
        if maxSec ≤ utter_sec then
          ({ s1 with in_utterance := false, trailing_silence := 0,
                     utter_parts := [], utter_bytes := 0 },
           [⟨s1.utter_parts.flatten, s1.utter_sr, s1.utter_ch, s1.utter_t0,
             "max_utter_sec"⟩])
        else (s1, [])
    | none => (s1, [])
  else if s.in_utterance then
    let ts := s.trailing_silence + 1
    if cfg.silence_chunks_to_finalize ≤ ts then
      ({ s with in_utterance := false, trailing_silence := 0,
                utter_parts := [], utter_bytes := 0 },
       [⟨s.utter_parts.flatten, s.utter_sr, s.utter_ch, s.utter_t0, "silence"⟩])
    else ({ s with trailing_silence := ts }, [])
  else (s, [])

/-- The `run` loop over a finite chunk stream, collecting finalize events. -/
def liveFold (cfg : LiveCfg) (isSpeech : List ℕ → Bool) :
    LiveState → List AudioChunk → LiveState × List FinalizeEvent
  | s, [] => (s, [])
  | s, c :: cs =>
      let r1 := liveStep cfg isSpeech s c
      let r2 := liveFold cfg isSpeech r1.1 cs
      (r2.1, r1.2 ++ r2.2)

/-- Loop states after each processed chunk. -/
def liveStates (cfg : LiveCfg) (isSpeech : List ℕ → Bool) :
    LiveState → List AudioChunk → List LiveState
  | _, [] => []
  | s, c :: cs =>
      let s' := (liveStep cfg isSpeech s c).1
      s' :: liveStates cfg isSpeech s' cs

/-- Model of `LiveUtteranceTranscriber.run`: the loop plus the stream-end
finalization. -/
def liveRun (cfg : LiveCfg) (isSpeech : List ℕ → Bool)
    (chunks : List AudioChunk) : List FinalizeEvent :=
  let r := liveFold cfg isSpeech liveInit chunks
  if r.1.in_utterance ∧ r.1.utter_parts ≠ [] then
    r.2 ++ [⟨r.1.utter_parts.flatten, r.1.utter_sr, r.1.utter_ch, r.1.utter_t0,
      "stream_end"⟩]
  else r.2

/-- Model note: `_finalize_utterance` skips the transcriber when the utterance is
shorter than `min_utter_sec`; the remaining events are exactly the
invocations of the opaque transcription capability. -/
def transcribeCalls (cfg : LiveCfg) (evs : List FinalizeEvent) :
    List FinalizeEvent :=
  evs.filter (fun e =>
    !(decide (_duration_from_pcm16 e.pcm16 e.sr e.ch < cfg.min_utter_sec)))

/-- Duration of one uniform chunk of `L` bytes, derived from byte length as
in `_duration_from_pcm16`. -/
def chunkDur (sr ch : ℤ) (L : ℕ) : ℚ := (L : ℚ) / ((sr * ch * 2 : ℤ) : ℚ)

/-- Claim C5: with `silence_chunks_to_finalize = 2`, `min_utter_sec` below
one chunk's duration and no max duration, the chunk sequence
silence-speech-speech-silence-silence invokes the transcription capability
exactly once — with utterance start equal to the first speech chunk's
start time and accumulated PCM worth two chunk durations — and the leading
silence chunk leaves the idle state untouched. -/
theorem live_silence_finalizes_once
    (isSpeech : List ℕ → Bool) (minU : ℚ) (sr ch : ℤ) (L : ℕ)
    (c1 c2 c3 c4 c5 : AudioChunk)
    (hsr : 1 ≤ sr) (hch : 1 ≤ ch) (hL : 1 ≤ L)
    (hc1 : isSpeech c1.pcm16 = false)
    (hc2 : isSpeech c2.pcm16 = true)
    (hc3 : isSpeech c3.pcm16 = true)
    (hc4 : isSpeech c4.pcm16 = false)
    (hc5 : isSpeech c5.pcm16 = false)
    (h2sr : c2.sample_rate = sr) (h2ch : c2.channels = ch)
    (h2L : c2.pcm16.length = L) (h3L : c3.pcm16.length = L)
    (hmin : minU < chunkDur sr ch L) :
    liveStep ⟨2, minU, none⟩ isSpeech liveInit c1 = (liveInit, []) ∧
    transcribeCalls ⟨2, minU, none⟩
        (liveRun ⟨2, minU, none⟩ isSpeech [c1, c2, c3, c4, c5])
      = [⟨c2.pcm16 ++ c3.pcm16, sr, ch, c2.start_time, "silence"⟩] ∧
    _duration_from_pcm16 (c2.pcm16 ++ c3.pcm16) sr ch
      = 2 * chunkDur sr ch L := by
  have hbps : ¬((sr * ch * 2 : ℤ) ≤ 0) := by nlinarith
  have hbpsQ : ((sr * ch * 2 : ℤ) : ℚ) ≠ 0 := by
    intro h
    exact hbps (le_of_eq (by exact_mod_cast h))
  have hdur : _duration_from_pcm16 (c2.pcm16 ++ c3.pcm16) sr ch
      = 2 * chunkDur sr ch L := by
    unfold _duration_from_pcm16 chunkDur
    rw [if_neg hbps]
    rw [List.length_append, h2L, h3L]
    push_cast
    field_simp
    ring
  have hd0 : 0 < chunkDur sr ch L := by
    unfold chunkDur
    apply div_pos
    · exact_mod_cast hL
    · have : (0 : ℤ) < sr * ch * 2 := by nlinarith
      exact_mod_cast this
  have hstep1 : liveStep ⟨2, minU, none⟩ isSpeech liveInit c1 = (liveInit, []) := by
    unfold liveStep
    rw [if_neg (by rw [hc1]; exact Bool.false_ne_true)]
    rfl
  refine ⟨hstep1, ?_, hdur⟩
  have hrun : liveRun ⟨2, minU, none⟩ isSpeech [c1, c2, c3, c4, c5]
      = [⟨c2.pcm16 ++ c3.pcm16, sr, ch, c2.start_time, "silence"⟩] := by
    unfold liveRun
    simp [liveFold, liveStep, liveInit, hc1, hc2, hc3, hc4, hc5,
      h2sr, h2ch, h2L, h3L]
  rw [hrun]
  unfold transcribeCalls
  rw [List.filter_cons]
  rw [hdur]
  have hkeep : ¬(2 * chunkDur sr ch L < minU) := by
    push_neg
    nlinarith
  simp [hkeep]

/-- A concrete stand-in classifier for witnesses: "speech" means the first
byte is 1. -/
def demoVad (bs : List ℕ) : Bool := bs.headD 0 == 1

/-- A concrete speech chunk (first byte 1) at time `t`: 2 bytes,
1 Hz, mono. -/
def demoChunkS (t : ℚ) : AudioChunk := ⟨[1, 0], 1, 1, t, 1⟩

/-- A concrete silence chunk at time `t`. -/
def demoChunkQ (t : ℚ) : AudioChunk := ⟨[0, 0], 1, 1, t, 1⟩

/-- Claim C5 witness: the scenario theorem at 1 Hz mono chunks of 2 bytes,
threshold classifier `demoVad`, and `min_utter_sec = 0`. -/
theorem live_silence_finalizes_once_witness :
    (1 : ℤ) ≤ 1 ∧ (1 : ℕ) ≤ 2 ∧
    demoVad (demoChunkQ 0).pcm16 = false ∧
    demoVad (demoChunkS 10).pcm16 = true ∧
    demoVad (demoChunkS 11).pcm16 = true ∧
    demoVad (demoChunkQ 12).pcm16 = false ∧
    demoVad (demoChunkQ 13).pcm16 = false ∧
    (demoChunkS 10).sample_rate = 1 ∧ (demoChunkS 10).channels = 1 ∧
    (demoChunkS 10).pcm16.length = 2 ∧ (demoChunkS 11).pcm16.length = 2 ∧
    (0 : ℚ) < chunkDur 1 1 2 ∧
    (liveStep ⟨2, 0, none⟩ demoVad liveInit (demoChunkQ 0) = (liveInit, []) ∧
     transcribeCalls ⟨2, 0, none⟩ (liveRun ⟨2, 0, none⟩ demoVad
        [demoChunkQ 0, demoChunkS 10, demoChunkS 11, demoChunkQ 12, demoChunkQ 13])
       = [⟨(demoChunkS 10).pcm16 ++ (demoChunkS 11).pcm16, 1, 1,
           (demoChunkS 10).start_time, "silence"⟩] ∧
     _duration_from_pcm16 ((demoChunkS 10).pcm16 ++ (demoChunkS 11).pcm16) 1 1
       = 2 * chunkDur 1 1 2) :=
  ⟨by decide, by decide, rfl, rfl, rfl, rfl, rfl, rfl, rfl, rfl, rfl,
    by norm_num [chunkDur],
    live_silence_finalizes_once demoVad 0 1 1 2 (demoChunkQ 0) (demoChunkS 10)
      (demoChunkS 11) (demoChunkQ 12) (demoChunkQ 13) (by decide) (by decide)
      (by decide) rfl rfl rfl rfl rfl rfl rfl rfl rfl (by norm_num [chunkDur])⟩

/-! ### Claim C6: forced finalization under `max_utter_sec` -/

/-- A uniform all-speech chunk stream. -/
def uniformChunks (isSpeech : List ℕ → Bool) (sr ch : ℤ) (L : ℕ)
    (chunks : List AudioChunk) : Prop :=
  ∀ c ∈ chunks, isSpeech c.pcm16 = true ∧ c.sample_rate = sr ∧
    c.channels = ch ∧ c.pcm16.length = L

/-- Loop-state invariant under a uniform speech stream: `r` chunks
(`r < ceil(max/chunk)`) are currently buffered. -/
def maxInv (sr ch : ℤ) (L : ℕ) (r : ℕ) (s : LiveState) : Prop :=
  s.trailing_silence = 0 ∧
  (r = 0 → s.in_utterance = false ∧ s.utter_parts = [] ∧ s.utter_bytes = 0) ∧
  (r ≠ 0 → s.in_utterance = true ∧ s.utter_bytes = r * L ∧
    s.utter_parts.flatten.length = r * L ∧ s.utter_sr = sr ∧ s.utter_ch = ch)

theorem chunkDur_pos (sr ch : ℤ) (L : ℕ) (hsr : 1 ≤ sr) (hch : 1 ≤ ch)
    (hL : 1 ≤ L) : 0 < chunkDur sr ch L := by
  unfold chunkDur
  apply div_pos
  · exact_mod_cast hL
  · have : (0 : ℤ) < sr * ch * 2 := by nlinarith
    exact_mod_cast this

theorem bytes_div_eq (sr ch : ℤ) (L k : ℕ) :
    ((k * L : ℕ) : ℚ) / (((sr * ch * 2 : ℤ)) : ℚ) = (k : ℚ) * chunkDur sr ch L := by
  unfold chunkDur
  push_cast
  rw [mul_div_assoc]

theorem cast_mul_dur_lt (sr ch : ℤ) (L m : ℕ) (M : ℚ)
    (hd : 0 < chunkDur sr ch L)
    (hM2 : ((m - 1 : ℕ) : ℚ) * chunkDur sr ch L < M) :
    ∀ k : ℕ, k < m → (k : ℚ) * chunkDur sr ch L < M := by
  intro k hk
  have hk1 : (k : ℚ) ≤ ((m - 1 : ℕ) : ℚ) := by
    exact_mod_cast Nat.le_sub_one_of_lt hk
  calc (k : ℚ) * chunkDur sr ch L
      ≤ ((m - 1 : ℕ) : ℚ) * chunkDur sr ch L :=
        mul_le_mul_of_nonneg_right hk1 hd.le
    _ < M := hM2

theorem liveStep_uniform
    (sct : ℕ) (minU M : ℚ) (isSpeech : List ℕ → Bool) (sr ch : ℤ) (L m : ℕ)
    (hsr : 1 ≤ sr) (hch : 1 ≤ ch) (hL : 1 ≤ L) (_hm : 1 ≤ m)
    (hM1 : M ≤ (m : ℚ) * chunkDur sr ch L)
    (hM2 : ((m - 1 : ℕ) : ℚ) * chunkDur sr ch L < M)
    (c : AudioChunk) (hcs : isSpeech c.pcm16 = true) (hcsr : c.sample_rate = sr)
    (hcch : c.channels = ch) (hcL : c.pcm16.length = L)
    (r : ℕ) (hr : r < m) (s : LiveState) (hs : maxInv sr ch L r s) :
    maxInv sr ch L ((r + 1) % m) (liveStep ⟨sct, minU, some M⟩ isSpeech s c).1 ∧
    (r + 1 < m → (liveStep ⟨sct, minU, some M⟩ isSpeech s c).2 = []) ∧
    (r + 1 = m → ∃ pcm t0, (liveStep ⟨sct, minU, some M⟩ isSpeech s c).2
        = [⟨pcm, sr, ch, t0, "max_utter_sec"⟩] ∧ pcm.length = m * L) := by
  have hd := chunkDur_pos sr ch L hsr hch hL
  have hbps : (0 : ℤ) < sr * ch * 2 := by nlinarith
  obtain ⟨hts, hz, hnz⟩ := hs
  -- the state after appending the chunk
  have key : ∃ parts,
      liveStep ⟨sct, minU, some M⟩ isSpeech s c =
        (let s1 : LiveState := ⟨parts, (if s.in_utterance then s.utter_t0 else c.start_time), sr, ch, true, 0, (r + 1) * L⟩
         if M ≤ ((r + 1 : ℕ) : ℚ) * chunkDur sr ch L then
           ({ s1 with in_utterance := false, trailing_silence := 0,
                      utter_parts := [], utter_bytes := 0 },
            [⟨s1.utter_parts.flatten, sr, ch, s1.utter_t0, "max_utter_sec"⟩])
         else (s1, [])) ∧
      parts.flatten.length = (r + 1) * L := by
    by_cases hr0 : r = 0
    · subst hr0
      obtain ⟨hiu, hparts, hbytes⟩ := hz rfl
      refine ⟨[c.pcm16], ?_, by simp [hcL]⟩
      unfold liveStep
      rw [hcs]
      simp only [if_true, hiu, Bool.false_eq_true, if_false, hparts, hbytes]
      rw [hcsr, hcch, hcL, if_pos hbps]
      have hrw : ((0 + L : ℕ) : ℚ) / ((sr * ch * 2 : ℤ) : ℚ)
          = ((0 + 1 : ℕ) : ℚ) * chunkDur sr ch L := by
        rw [← bytes_div_eq sr ch L (0 + 1)]
        norm_num
      rw [hrw]
      norm_num
    · obtain ⟨hiu, hbytes, hflat, hssr, hsch⟩ := hnz hr0
      refine ⟨s.utter_parts ++ [c.pcm16], ?_, by
        rw [List.flatten_append, List.length_append, hflat]
        simp [hcL]
        try ring⟩
      unfold liveStep
      rw [hcs]
      simp only [if_true, hiu, eq_self_iff_true]
      rw [hbytes, hssr, hsch, hcL, if_pos hbps]
      have hrw : ((r * L + L : ℕ) : ℚ) / ((sr * ch * 2 : ℤ) : ℚ)
          = ((r + 1 : ℕ) : ℚ) * chunkDur sr ch L := by
        rw [show (r * L + L : ℕ) = (r + 1) * L from by ring]
        exact bytes_div_eq sr ch L (r + 1)
      rw [hrw]
      try rw [show ((r + 1) * L : ℕ) = r * L + L from by ring]
      try norm_num
  obtain ⟨parts, hstep, hplen⟩ := key
  rw [hstep]
  by_cases hfin : r + 1 = m
  · have hcond : M ≤ ((r + 1 : ℕ) : ℚ) * chunkDur sr ch L := by
      rw [hfin]
      exact_mod_cast hM1
    rw [if_pos hcond]
    refine ⟨?_, ?_, ?_⟩
    · rw [hfin, Nat.mod_self]
      exact ⟨rfl, fun _ => ⟨rfl, rfl, rfl⟩, fun h => absurd rfl h⟩
    · intro h
      omega
    · intro _
      exact ⟨parts.flatten, _, rfl, by rw [hplen, hfin]⟩
  · have hlt : r + 1 < m := by omega
    have hcond : ¬(M ≤ ((r + 1 : ℕ) : ℚ) * chunkDur sr ch L) := by
      push_neg
      exact cast_mul_dur_lt sr ch L m M hd hM2 (r + 1) hlt
    rw [if_neg hcond]
    refine ⟨?_, fun _ => rfl, fun h => absurd h (by omega)⟩
    rw [Nat.mod_eq_of_lt hlt]
    refine ⟨rfl, fun h => absurd h (by omega), fun _ => ⟨rfl, rfl, hplen, rfl, rfl⟩⟩

theorem liveFold_uniform
    (sct : ℕ) (minU M : ℚ) (isSpeech : List ℕ → Bool) (sr ch : ℤ) (L m : ℕ)
    (hsr : 1 ≤ sr) (hch : 1 ≤ ch) (hL : 1 ≤ L) (hm : 1 ≤ m)
    (hM1 : M ≤ (m : ℚ) * chunkDur sr ch L)
    (hM2 : ((m - 1 : ℕ) : ℚ) * chunkDur sr ch L < M) :
    ∀ (chunks : List AudioChunk) (r : ℕ) (s : LiveState),
      uniformChunks isSpeech sr ch L chunks → r < m → maxInv sr ch L r s →
      maxInv sr ch L ((r + chunks.length) % m)
        (liveFold ⟨sct, minU, some M⟩ isSpeech s chunks).1 ∧
      (liveFold ⟨sct, minU, some M⟩ isSpeech s chunks).2.length
        = (r + chunks.length) / m ∧
      (∀ e ∈ (liveFold ⟨sct, minU, some M⟩ isSpeech s chunks).2,
        e.reason = "max_utter_sec" ∧ e.sr = sr ∧ e.ch = ch ∧
          e.pcm16.length = m * L) ∧
      (∀ s' ∈ liveStates ⟨sct, minU, some M⟩ isSpeech s chunks,
        ∃ r', r' < m ∧ maxInv sr ch L r' s')
  | [], r, s, _, hr, hs => by
      refine ⟨?_, ?_, ?_, ?_⟩
      · simpa [liveFold, Nat.mod_eq_of_lt hr] using hs
      · simp [liveFold, Nat.div_eq_of_lt hr]
      · simp [liveFold]
      · simp [liveStates]
  | c :: cs, r, s, hunif, hr, hs => by
      obtain ⟨hcs, hcsr, hcch, hcL⟩ := hunif c (List.mem_cons_self c cs)
      have hrest : uniformChunks isSpeech sr ch L cs :=
        fun c' hc' => hunif c' (List.mem_cons_of_mem c hc')
      have hstep := liveStep_uniform sct minU M isSpeech sr ch L m hsr hch hL hm
        hM1 hM2 c hcs hcsr hcch hcL r hr s hs
      obtain ⟨hinv', hempty, hfull⟩ := hstep
      have hfold1 : (liveFold ⟨sct, minU, some M⟩ isSpeech s (c :: cs)).1
          = (liveFold ⟨sct, minU, some M⟩ isSpeech
              (liveStep ⟨sct, minU, some M⟩ isSpeech s c).1 cs).1 := rfl
      have hfold2 : (liveFold ⟨sct, minU, some M⟩ isSpeech s (c :: cs)).2
          = (liveStep ⟨sct, minU, some M⟩ isSpeech s c).2 ++
              (liveFold ⟨sct, minU, some M⟩ isSpeech
                (liveStep ⟨sct, minU, some M⟩ isSpeech s c).1 cs).2 := rfl
      have hstates_eq : liveStates ⟨sct, minU, some M⟩ isSpeech s (c :: cs)
          = (liveStep ⟨sct, minU, some M⟩ isSpeech s c).1 ::
              liveStates ⟨sct, minU, some M⟩ isSpeech
                (liveStep ⟨sct, minU, some M⟩ isSpeech s c).1 cs := rfl
      by_cases hfin : r + 1 = m
      · have hmod0 : (r + 1) % m = 0 := by rw [hfin, Nat.mod_self]
        rw [hmod0] at hinv'
        have ih := liveFold_uniform sct minU M isSpeech sr ch L m hsr hch hL hm
          hM1 hM2 cs 0 _ hrest (by omega) hinv'
        obtain ⟨ih1, ih2, ih3, ih4⟩ := ih
        obtain ⟨pcm, t0, hev, hevlen⟩ := hfull hfin
        refine ⟨?_, ?_, ?_, ?_⟩
        · rw [hfold1]
          have h1 : r + (c :: cs).length = cs.length + m := by
            simp only [List.length_cons]
            omega
          rw [h1, Nat.add_mod_right]
          simpa using ih1
        · rw [hfold2, List.length_append, hev, ih2]
          have h1 : r + (c :: cs).length = cs.length + m := by
            simp only [List.length_cons]
            omega
          rw [h1, Nat.add_div_right _ (by omega : 0 < m)]
          simp only [List.length_cons, List.length_nil, Nat.zero_add]
          exact Nat.add_comm 1 _
        · intro e he
          rw [hfold2] at he
          rcases List.mem_append.mp he with he' | he'
          · rw [hev] at he'
            have : e = ⟨pcm, sr, ch, t0, "max_utter_sec"⟩ := by simpa using he'
            rw [this]
            exact ⟨rfl, rfl, rfl, hevlen⟩
          · exact ih3 e he'
        · intro s' hs'
          rw [hstates_eq] at hs'
          rcases List.mem_cons.mp hs' with rfl | hs'
          · exact ⟨0, by omega, hinv'⟩
          · exact ih4 s' hs'
      · have hlt : r + 1 < m := by omega
        have hmod : (r + 1) % m = r + 1 := Nat.mod_eq_of_lt hlt
        rw [hmod] at hinv'
        have ih := liveFold_uniform sct minU M isSpeech sr ch L m hsr hch hL hm
          hM1 hM2 cs (r + 1) _ hrest hlt hinv'
        obtain ⟨ih1, ih2, ih3, ih4⟩ := ih
        have hev : (liveStep ⟨sct, minU, some M⟩ isSpeech s c).2 = [] := hempty hlt
        have h1 : r + (c :: cs).length = r + 1 + cs.length := by
          simp only [List.length_cons]
          omega
        refine ⟨?_, ?_, ?_, ?_⟩
        · rw [hfold1, h1]
          exact ih1
        · rw [hfold2, List.length_append, hev, ih2, h1]
          simp
        · intro e he
          rw [hfold2] at he
          rcases List.mem_append.mp he with he' | he'
          · rw [hev] at he'
            exact absurd he' (List.not_mem_nil e)
          · exact ih3 e he'
        · intro s' hs'
          rw [hstates_eq] at hs'
          rcases List.mem_cons.mp hs' with rfl | hs'
          · exact ⟨r + 1, hlt, hinv'⟩
          · exact ih4 s' hs'

/-- Claim C6: with `max_utter_sec = M` set and a uniform all-speech stream
whose chunks last `chunkDur sr ch L` seconds each (`m` is the least chunk
count whose total duration reaches `M`), `run` force-finalizes with reason
"max_utter_sec" exactly once per `m` chunks — `⌊n/m⌋` times over `n`
chunks — each such finalization hands over exactly `m` chunks of audio
(duration `< M +` one chunk), the machine is back in `Idle` with an empty
buffer right after each forced finalization, and the accumulated buffer
duration after any processed chunk stays below `M` (so the buffer never
exceeds `M` plus one chunk's duration at any step). -/
theorem live_max_utter_forced_finalize
    (sct : ℕ) (minU M : ℚ) (isSpeech : List ℕ → Bool) (sr ch : ℤ) (L m : ℕ)
    (chunks : List AudioChunk)
    (hsr : 1 ≤ sr) (hch : 1 ≤ ch) (hL : 1 ≤ L) (hm : 1 ≤ m)
    (hM1 : M ≤ (m : ℚ) * chunkDur sr ch L)
    (hM2 : ((m - 1 : ℕ) : ℚ) * chunkDur sr ch L < M)
    (hunif : uniformChunks isSpeech sr ch L chunks) :
    (liveRun ⟨sct, minU, some M⟩ isSpeech chunks).countP
        (fun e => e.reason == "max_utter_sec") = chunks.length / m ∧
    (∀ e ∈ liveRun ⟨sct, minU, some M⟩ isSpeech chunks,
      _duration_from_pcm16 e.pcm16 e.sr e.ch < M + chunkDur sr ch L) ∧
    (∀ s ∈ liveStates ⟨sct, minU, some M⟩ isSpeech liveInit chunks,
      (s.utter_bytes : ℚ) / ((sr * ch * 2 : ℤ) : ℚ) < M) ∧
    maxInv sr ch L (chunks.length % m)
      (liveFold ⟨sct, minU, some M⟩ isSpeech liveInit chunks).1 := by
  have hd := chunkDur_pos sr ch L hsr hch hL
  have hbps : (0 : ℤ) < sr * ch * 2 := by nlinarith
  have hbps' : ¬((sr * ch * 2 : ℤ) ≤ 0) := not_le.mpr hbps
  have hM0 : 0 < M := by
    have : (0 : ℚ) ≤ ((m - 1 : ℕ) : ℚ) * chunkDur sr ch L := by positivity
    linarith
  have hmd : (m : ℚ) * chunkDur sr ch L < M + chunkDur sr ch L := by
    have hcast : ((m - 1 : ℕ) : ℚ) = (m : ℚ) - 1 := by
      have hc : ((m - 1 : ℕ) : ℚ) = (m : ℚ) - ((1 : ℕ) : ℚ) := Nat.cast_sub hm
      simpa using hc
    rw [hcast] at hM2
    nlinarith [hd]
  have hinit : maxInv sr ch L 0 liveInit :=
    ⟨rfl, fun _ => ⟨rfl, rfl, rfl⟩, fun h => absurd rfl h⟩
  have hfold := liveFold_uniform sct minU M isSpeech sr ch L m hsr hch hL hm
    hM1 hM2 chunks 0 liveInit hunif (by omega) hinit
  obtain ⟨hinv, hcount, hevs, hstates⟩ := hfold
  simp only [Nat.zero_add] at hinv hcount
  have hdur_ev : ∀ e ∈ (liveFold ⟨sct, minU, some M⟩ isSpeech liveInit chunks).2,
      _duration_from_pcm16 e.pcm16 e.sr e.ch < M + chunkDur sr ch L := by
    intro e he
    obtain ⟨_, hesr, hech, helen⟩ := hevs e he
    unfold _duration_from_pcm16
    rw [hesr, hech, if_neg hbps', helen, bytes_div_eq]
    exact hmd
  constructor
  · -- count of forced finalizations
    simp only [liveRun]
    split
    · rw [List.countP_append]
      have h2 : ∀ ev : FinalizeEvent, ev.reason = "stream_end" →
          List.countP (fun e => e.reason == "max_utter_sec") [ev] = 0 := by
        intro ev hev
        simp [List.countP_cons, hev]
      rw [h2 _ rfl, Nat.add_zero]
      rw [List.countP_eq_length.mpr, hcount]
      intro e he
      simp only [beq_iff_eq]
      exact (hevs e he).1
    · rw [List.countP_eq_length.mpr, hcount]
      intro e he
      simp only [beq_iff_eq]
      exact (hevs e he).1
  refine ⟨?_, ?_, hinv⟩
  · -- duration bound on every finalized buffer
    intro e he
    simp only [liveRun] at he
    split at he
    · rename_i hcond
      rcases List.mem_append.mp he with he' | he'
      · exact hdur_ev e he'
      · have heq : e = ⟨(liveFold ⟨sct, minU, some M⟩ isSpeech liveInit chunks).1.utter_parts.flatten,
            (liveFold ⟨sct, minU, some M⟩ isSpeech liveInit chunks).1.utter_sr,
            (liveFold ⟨sct, minU, some M⟩ isSpeech liveInit chunks).1.utter_ch,
            (liveFold ⟨sct, minU, some M⟩ isSpeech liveInit chunks).1.utter_t0,
            "stream_end"⟩ := by simpa using he'
        obtain ⟨hts, hz, hnz⟩ := hinv
        have hr0 : chunks.length % m ≠ 0 := by
          intro h0
          obtain ⟨hiu, _, _⟩ := hz h0
          rw [hiu] at hcond
          simp at hcond
        obtain ⟨hiu, hbytes, hflat, hssr, hsch⟩ := hnz hr0
        rw [heq]
        unfold _duration_from_pcm16
        simp only
        rw [hssr, hsch, if_neg hbps', hflat, bytes_div_eq]
        have hlt : chunks.length % m < m := Nat.mod_lt _ (by omega)
        have := cast_mul_dur_lt sr ch L m M hd hM2 (chunks.length % m) hlt
        linarith
    · exact hdur_ev e he
  · -- buffered duration after every chunk stays below the cap
    intro s hsmem
    obtain ⟨r', hr', hinv'⟩ := hstates s hsmem
    obtain ⟨_, hz, hnz⟩ := hinv'
    by_cases hr0 : r' = 0
    · obtain ⟨_, _, hbytes⟩ := hz hr0
      rw [hbytes]
      simpa using hM0
    · obtain ⟨_, hbytes, _, _, _⟩ := hnz hr0
      rw [hbytes, bytes_div_eq]
      exact cast_mul_dur_lt sr ch L m M hd hM2 r' hr'

/-- Claim C6 witness: five continuous speech chunks of one second each with
`max_utter_sec = 2` force-finalize twice (`⌊5/2⌋`). -/
theorem live_max_utter_forced_finalize_witness :
    (1 : ℤ) ≤ 1 ∧ (1 : ℕ) ≤ 2 ∧
    (2 : ℚ) ≤ (2 : ℕ) * chunkDur 1 1 2 ∧
    ((2 - 1 : ℕ) : ℚ) * chunkDur 1 1 2 < 2 ∧
    uniformChunks demoVad 1 1 2
      [demoChunkS 0, demoChunkS 1, demoChunkS 2, demoChunkS 3, demoChunkS 4] ∧
    ((liveRun ⟨2, 0, some 2⟩ demoVad
        [demoChunkS 0, demoChunkS 1, demoChunkS 2, demoChunkS 3,
         demoChunkS 4]).countP (fun e => e.reason == "max_utter_sec")
        = ([demoChunkS 0, demoChunkS 1, demoChunkS 2, demoChunkS 3,
            demoChunkS 4] : List AudioChunk).length / 2 ∧
     (∀ e ∈ liveRun ⟨2, 0, some 2⟩ demoVad
        [demoChunkS 0, demoChunkS 1, demoChunkS 2, demoChunkS 3, demoChunkS 4],
       _duration_from_pcm16 e.pcm16 e.sr e.ch < 2 + chunkDur 1 1 2) ∧
     (∀ s ∈ liveStates ⟨2, 0, some 2⟩ demoVad liveInit
        [demoChunkS 0, demoChunkS 1, demoChunkS 2, demoChunkS 3, demoChunkS 4],
       (s.utter_bytes : ℚ) / (((1 * 1 * 2 : ℤ)) : ℚ) < 2) ∧
     maxInv 1 1 2 (([demoChunkS 0, demoChunkS 1, demoChunkS 2, demoChunkS 3,
         demoChunkS 4] : List AudioChunk).length % 2)
       (liveFold ⟨2, 0, some 2⟩ demoVad liveInit
         [demoChunkS 0, demoChunkS 1, demoChunkS 2, demoChunkS 3,
          demoChunkS 4]).1) :=
  ⟨by decide, by decide, by norm_num [chunkDur], by norm_num [chunkDur],
    (by intro c hc; fin_cases hc <;> exact ⟨rfl, rfl, rfl, rfl⟩),
    live_max_utter_forced_finalize 2 0 2 demoVad 1 1 2 2
      [demoChunkS 0, demoChunkS 1, demoChunkS 2, demoChunkS 3, demoChunkS 4]
      (by decide) (by decide) (by decide) (by decide)
      (by norm_num [chunkDur]) (by norm_num [chunkDur])
      (by intro c hc; fin_cases hc <;> exact ⟨rfl, rfl, rfl, rfl⟩)⟩

/-! ### itosub/audio/utterance_chunker.py -/

/-- Structure `UtteranceConfig`. -/
structure UtteranceConfig where
  frame_ms : ℤ
  vad_aggressiveness : ℤ
  min_speech_ms : ℤ
  end_silence_ms : ℤ
deriving DecidableEq

/-- Model of `_iter_vad_frames`: consecutive full frames of `frame_bytes` bytes; any
trailing partial frame is dropped (Python `range(0, len - fb + 1, fb)`).
A non-positive frame size yields no frames (a zero Python `range` step is a
degenerate case outside the chunker's use). -/
def _iter_vad_frames (pcm16 : List ℕ) (frame_bytes : ℕ) : List (List ℕ) :=
  if h : frame_bytes = 0 ∨ pcm16.length < frame_bytes then []
  else
    pcm16.take frame_bytes ::
      _iter_vad_frames (pcm16.drop frame_bytes) frame_bytes
termination_by pcm16.length
decreasing_by
  push_neg at h
  rw [List.length_drop]
  omega

/-- Little-endian int16 re-encoding (`array("h").tobytes`). -/
def encodeInt16LE (samples : List ℤ) : List ℕ :=
  samples.flatMap (fun v => [((v % 65536) % 256).toNat, ((v % 65536) / 256).toNat])

/-- Every `n`-th element starting at index 0
(`range(0, len(samples), channels)`). -/
def everyNth (n : ℕ) : List ℤ → List ℤ
  | [] => []
  | x :: rest => x :: everyNth n (rest.drop (n - 1))
termination_by l => l.length
decreasing_by
  rw [List.length_drop]
  simp only [List.length_cons]
  omega

/-- Model of `_to_mono_pcm16`: keep only the first channel's samples. -/
def _to_mono_pcm16 (frame : List ℕ) (channels : ℤ) : List ℕ :=
  if channels ≤ 1 then frame
  else
    match decodeInt16LE frame with
    | none => []
    | some samples => encodeInt16LE (everyNth channels.toNat samples)

/-- Mutable closure state of `utterances_from_audio_chunks`. -/
structure ChunkerState where
  in_utt : Bool
  speech_frames : ℤ
  silence_run : ℤ
  utter_pcm_parts : List (List ℕ)
  utter_t0 : ℚ
  utter_t1 : ℚ
  utter_sr : ℤ
deriving DecidableEq

/-- Model of `maybe_emit` from `itosub/audio/utterance_chunker.py`: finalize the open
utterance; discard it when too few speech frames accumulated, otherwise
emit a single mono `AudioChunk` spanning the utterance. -/
def maybe_emit (min_speech_frames : ℤ) (s : ChunkerState) :
    ChunkerState × Option AudioChunk :=
  if s.in_utt = false then (s, none)
  else if s.speech_frames < min_speech_frames ∨ s.utter_pcm_parts = [] then
    ({ s with in_utt := false, silence_run := 0, speech_frames := 0,
              utter_pcm_parts := [] }, none)
  else
    ({ s with in_utt := false, silence_run := 0, speech_frames := 0,
              utter_pcm_parts := [] },
     some ⟨s.utter_pcm_parts.flatten, s.utter_sr, 1, s.utter_t0,
       max 0 (s.utter_t1 - s.utter_t0)⟩)

/-- The per-frame transition of the chunker loop.  `classify` is the opaque
`webrtcvad.Vad.is_speech` on mono bytes. -/
def chunkerFrameStep (frame_dur : ℚ) (min_speech_frames end_silence_frames : ℤ)
    (classify : List ℕ → Bool) (channels : ℤ) (s : ChunkerState)
    (frame : List ℕ) (frame_time : ℚ) : ChunkerState × Option AudioChunk :=
  if classify (_to_mono_pcm16 frame channels) then
    let s0 := if s.in_utt = false then
        { s with in_utt := true, utter_t0 := frame_time, utter_pcm_parts := [],
                 speech_frames := 0, silence_run := 0 }
      else s
    ({ s0 with speech_frames := s0.speech_frames + 1, silence_run := 0,
               utter_pcm_parts :=
                 s0.utter_pcm_parts ++ [_to_mono_pcm16 frame channels],
               utter_t1 := frame_time + frame_dur }, none)
  else if s.in_utt then
    let s1 := { s with silence_run := s.silence_run + 1,
                       utter_pcm_parts :=
                         s.utter_pcm_parts ++ [_to_mono_pcm16 frame channels],
                       utter_t1 := frame_time + frame_dur }
    if end_silence_frames ≤ s1.silence_run then
      maybe_emit min_speech_frames s1
    else (s1, none)
  else (s, none)

/-- The frame loop inside one chunk, advancing `frame_time` by `frame_dur`
per frame. -/
def chunkerFrames (frame_dur : ℚ) (msf esf : ℤ) (classify : List ℕ → Bool)
    (channels : ℤ) : ChunkerState → ℚ → List (List ℕ) →
      ChunkerState × List AudioChunk
  | s, _, [] => (s, [])
  | s, t, f :: fs =>
      let r1 := chunkerFrameStep frame_dur msf esf classify channels s f t
      let r2 := chunkerFrames frame_dur msf esf classify channels r1.1
        (t + frame_dur) fs
      (r2.1, r1.2.toList ++ r2.2)

/-- The chunk loop of `utterances_from_audio_chunks` (the frame-level VAD is
already constructed from the first chunk). -/
def chunkerChunks (cfg : UtteranceConfig) (classify : List ℕ → Bool)
    (vadFrameBytes : ℤ) : ChunkerState → List AudioChunk →
      ChunkerState × List AudioChunk
  | s, [] => (s, [])
  | s, c :: cs =>
      let frames := _iter_vad_frames c.pcm16 (vadFrameBytes * c.channels).toNat
      let r1 := chunkerFrames ((cfg.frame_ms : ℚ) / 1000)
        (max 1 (cfg.min_speech_ms.fdiv cfg.frame_ms))
        (max 1 (cfg.end_silence_ms.fdiv cfg.frame_ms))
        classify c.channels s c.start_time frames
      let r2 := chunkerChunks cfg classify vadFrameBytes r1.1 cs
      (r2.1, r1.2 ++ r2.2)

/-- Model of `utterances_from_audio_chunks`: construct the frame VAD from the first
chunk, run the chunk loop, then finalize once more at stream end. -/
def utterances_from_audio_chunks (cfg : UtteranceConfig)
    (classify : List ℕ → Bool) :
    List AudioChunk → Except String (List AudioChunk)
  | [] => Except.ok []
  | c :: cs =>
      match WebRtcVad.init c.sample_rate cfg.frame_ms with
      | Except.error e => Except.error e
      | Except.ok vad =>
          let s0 : ChunkerState := ⟨false, 0, 0, [], 0, 0, c.sample_rate⟩
          let r := chunkerChunks cfg classify vad.frame_bytes s0 (c :: cs)
          let fin := maybe_emit (max 1 (cfg.min_speech_ms.fdiv cfg.frame_ms)) r.1
          Except.ok (r.2 ++ fin.2.toList)

theorem iter_vad_frames_stop (pcm16 : List ℕ) (frame_bytes : ℕ)
    (h : frame_bytes = 0 ∨ pcm16.length < frame_bytes) :
    _iter_vad_frames pcm16 frame_bytes = [] := by
  rw [_iter_vad_frames]
  rw [dif_pos h]

theorem iter_vad_frames_step (pcm16 : List ℕ) (frame_bytes : ℕ)
    (h : ¬(frame_bytes = 0 ∨ pcm16.length < frame_bytes)) :
    _iter_vad_frames pcm16 frame_bytes =
      pcm16.take frame_bytes ::
        _iter_vad_frames (pcm16.drop frame_bytes) frame_bytes := by
  rw [_iter_vad_frames]
  rw [dif_neg h]

theorem iter_vad_frames_whole (pcm16 : List ℕ) (frame_bytes : ℕ)
    (h0 : 0 < frame_bytes) (hlen : pcm16.length = frame_bytes) :
    _iter_vad_frames pcm16 frame_bytes = [pcm16] := by
  rw [iter_vad_frames_step _ _ (by omega)]
  rw [← hlen, List.take_length, List.drop_length,
    iter_vad_frames_stop _ _ (Or.inr (by simp only [List.length_nil]; omega))]

set_option maxRecDepth 100000 in
/-- Claim C7 counterexample: a stream whose second chunk starts before the
first (start times 10 then 0) drives the utterance end time below its start
time; the emitted chunk's `duration` is then `max(0, end − start) = 0`,
not `end − start = 1/100 − 10`.  (`frame_ms = 10`, 8 kHz mono: one
160-byte frame per chunk; the first frame is speech under `demoVad`, the
second silence, `end_silence_frames = min_speech_frames = 1`.) -/
theorem chunker_duration_clamped :
    utterances_from_audio_chunks ⟨10, 2, 10, 10⟩ demoVad
      [⟨1 :: List.replicate 159 0, 8000, 1, 10, 1 / 100⟩,
       ⟨List.replicate 160 0, 8000, 1, 0, 1 / 100⟩]
      = Except.ok [⟨(1 :: List.replicate 159 0) ++ List.replicate 160 0,
          8000, 1, 10, 0⟩] ∧
    ((0 : ℚ) + (10 : ℚ) / 1000) - 10 ≠ 0 := by
  constructor
  · have hvad : WebRtcVad.init 8000 10 = Except.ok ⟨8000, 10, 160⟩ := by
      unfold WebRtcVad.init
      norm_num
    have hf1 : _iter_vad_frames (1 :: List.replicate 159 0) 160
        = [1 :: List.replicate 159 0] :=
      iter_vad_frames_whole _ _ (by omega) (by simp)
    have hf2 : _iter_vad_frames (List.replicate 160 0) 160
        = [List.replicate 160 0] :=
      iter_vad_frames_whole _ _ (by omega) (by simp)
    have hmono1 : _to_mono_pcm16 (1 :: List.replicate 159 0) 1
        = 1 :: List.replicate 159 0 := rfl
    have hmono2 : _to_mono_pcm16 (List.replicate 160 0) 1
        = List.replicate 160 0 := rfl
    have hv1 : demoVad (1 :: List.replicate 159 0) = true := rfl
    have hv2 : demoVad (List.replicate 160 0) = false := by
      simp [demoVad, List.replicate]
    have hmsf : max 1 (Int.fdiv 10 10) = (1 : ℤ) := by decide
    have hmax0 : max (0 : ℚ) (0 + ((10 : ℤ) : ℚ) / 1000 - 10) = 0 := by
      rw [max_eq_left]
      norm_num
    have h160 : Int.toNat 160 = 160 := rfl
    simp only [utterances_from_audio_chunks, hvad]
    norm_num [chunkerChunks, hmsf, h160, hf1, hf2, chunkerFrames,
      chunkerFrameStep, hmono1, hmono2, hv1, hv2, maybe_emit, hmax0]
    simp
  · norm_num

theorem iter_vad_frames_spec (fb : ℕ) (hfb : 0 < fb) :
    ∀ pcm16 : List ℕ,
      (∀ f ∈ _iter_vad_frames pcm16 fb, f.length = fb) ∧
      (_iter_vad_frames pcm16 fb).length = pcm16.length / fb ∧
      (_iter_vad_frames pcm16 fb).flatten
        = pcm16.take (pcm16.length / fb * fb)
  | pcm16 => by
      by_cases h : pcm16.length < fb
      · rw [iter_vad_frames_stop _ _ (Or.inr h)]
        rw [Nat.div_eq_of_lt h]
        refine ⟨by simp, by simp, by simp⟩
      · have hge : fb ≤ pcm16.length := le_of_not_lt h
        have ih := iter_vad_frames_spec fb hfb (pcm16.drop fb)
        obtain ⟨ih1, ih2, ih3⟩ := ih
        rw [iter_vad_frames_step pcm16 fb (by omega)]
        refine ⟨?_, ?_, ?_⟩
        · intro f hf
          rcases List.mem_cons.mp hf with rfl | hf'
          · rw [List.length_take]
            omega
          · exact ih1 f hf'
        · simp only [List.length_cons, ih2, List.length_drop]
          rw [Nat.div_eq_sub_div hfb hge]
        · simp only [List.flatten_cons, ih3, List.length_drop]
          rw [Nat.div_eq_sub_div hfb hge]
          rw [show ((pcm16.length - fb) / fb + 1) * fb
              = fb + (pcm16.length - fb) / fb * fb from by ring]
          rw [List.take_add]
  termination_by pcm16 => pcm16.length
  decreasing_by
    simp_wf
    refine ⟨?_, hfb⟩
    show 0 < pcm16.length
    omega

/-- Claim C7 (amended): each chunk is split into consecutive full VAD
frames with the trailing partial frame dropped (`⌊len/fb⌋` frames of
exactly `fb` bytes covering the first `⌊len/fb⌋·fb` bytes); at
finalization `maybe_emit` emits nothing when the accumulated speech-frame
count is below the configured minimum (or nothing was buffered), and
otherwise emits exactly one mono (`channels = 1`) `AudioChunk` whose start
is the utterance start and whose duration is `max 0 (end − start)` — equal
to `end − start` for chronologically ordered streams — while always
closing the utterance. -/
theorem chunker_frames_and_emit :
    (∀ (pcm16 : List ℕ) (fb : ℕ), 0 < fb →
      (∀ f ∈ _iter_vad_frames pcm16 fb, f.length = fb) ∧
      (_iter_vad_frames pcm16 fb).length = pcm16.length / fb ∧
      (_iter_vad_frames pcm16 fb).flatten
        = pcm16.take (pcm16.length / fb * fb)) ∧
    (∀ (msf : ℤ) (s : ChunkerState), s.in_utt = true →
      ((s.speech_frames < msf ∨ s.utter_pcm_parts = []) →
        (maybe_emit msf s).2 = none) ∧
      (¬(s.speech_frames < msf) → s.utter_pcm_parts ≠ [] →
        (maybe_emit msf s).2 = some ⟨s.utter_pcm_parts.flatten, s.utter_sr, 1,
          s.utter_t0, max 0 (s.utter_t1 - s.utter_t0)⟩)) ∧
    (∀ (msf : ℤ) (s : ChunkerState), (maybe_emit msf s).1.in_utt = false) := by
  refine ⟨fun pcm16 fb hfb => iter_vad_frames_spec fb hfb pcm16, ?_, ?_⟩
  · intro msf s hiu
    constructor
    · intro hcond
      unfold maybe_emit
      rw [hiu]
      simp only [Bool.true_eq_false, if_false]
      rw [if_pos hcond]
    · intro h1 h2
      unfold maybe_emit
      rw [hiu]
      simp only [Bool.true_eq_false, if_false]
      rw [if_neg]
      rintro (hc | hc)
      · exact h1 hc
      · exact h2 hc
  · intro msf s
    unfold maybe_emit
    by_cases hiu : s.in_utt = false
    · rw [if_pos hiu]
      exact hiu
    · rw [if_neg hiu]
      split <;> rfl

/-- Claim C7 witness: the amended theorem at the 3-byte buffer `[0,0,0]`
with 2-byte frames, and at a finalizing state holding one speech frame. -/
theorem chunker_frames_and_emit_witness :
    (0 : ℕ) < 2 ∧
    (⟨true, 1, 0, [[5]], 3, 7, 8000⟩ : ChunkerState).in_utt = true ∧
    ¬((1 : ℤ) < 1) ∧ ([[5]] : List (List ℕ)) ≠ [] ∧
    (∀ f ∈ _iter_vad_frames [0, 0, 0] 2, f.length = 2) ∧
    ((maybe_emit 1 ⟨true, 1, 0, [[5]], 3, 7, 8000⟩).2
      = some ⟨([[5]] : List (List ℕ)).flatten, 8000, 1, 3, max 0 ((7 : ℚ) - 3)⟩) ∧
    (maybe_emit 1 ⟨true, 1, 0, [[5]], 3, 7, 8000⟩).1.in_utt = false :=
  ⟨by decide, rfl, by decide, by decide,
   (chunker_frames_and_emit.1 [0, 0, 0] 2 (by decide)).1,
   (chunker_frames_and_emit.2.1 1 ⟨true, 1, 0, [[5]], 3, 7, 8000⟩ rfl).2
     (by decide) (by decide),
   chunker_frames_and_emit.2.2 1 ⟨true, 1, 0, [[5]], 3, 7, 8000⟩⟩

end ItoSub
